import Mathlib

/-!
# taco: index expressions, tensor variables and tensor packing

A shallow embedding of `src/expr/expr.cpp` (index variables, tensor variables,
expression nodes, binding of index expressions, operator splits, schedules) and
of the tensor packer exercised by `test/storage-tests.cpp`.

Handles (`IndexVar`, `TensorVar`) are pointers to a heap-allocated `Content`;
they are embedded as addresses into an explicit `State`.  Expression nodes are
immutable once built, so an `IndexExpr` is embedded as a tree whose nodes carry
their address; the one mutable part of a node, its vector of operator splits,
lives in the `State`, keyed by the node address.

Headers that `expr.cpp` includes but that are not among the sources (`type.h`,
`format.h`, `schedule.h`, `expr_nodes.h`, `expr_visitor.h`, `error_checks.h`)
are either parameters of the embedding (`ErrorChecks`) or modelled from the
spec, and say so.  The packer is modelled from the spec as well: entries are
brought into storage order and sorted with a stable sort, then compressed level
by level; the model reproduces every expected result of the storage test
(`pack_vector_tests`, `pack_matrix_tests`, `pack_tensor3_dense_last_tests`,
`pack_tensor3_sparse_last_tests`).
-/

namespace taco

/-! ## Types, shapes and formats -/

/-- Modelled from the spec: `Dimension` (declared in `taco/type.h`, which is not
among the sources): either a known size or unknown. -/
inductive Dimension where
  | fixed (size : Nat)
  | variable
deriving DecidableEq, Repr

/-- Modelled from the spec: the element scalar kinds of `taco/type.h`. -/
inductive DataType where
  | i32
  | f32
  | f64
deriving DecidableEq, Repr

/-- Modelled from the spec: `Shape`, an ordered sequence of dimensions. -/
structure Shape where
  dimensions : List Dimension
deriving DecidableEq, Repr

/-- Modelled from the spec: `Type` of `taco/type.h`, a pair of an element kind
and a shape. -/
structure TensorType where
  dataType : DataType
  shape : Shape
deriving DecidableEq, Repr

/-- Accessor `Type::getShape`. -/
def TensorType.getShape (t : TensorType) : Shape := t.shape

/-- Accessor `Shape::getDimension`; reading past the end has no defined result
and is embedded as `none`. -/
def Shape.getDimension (s : Shape) (i : Nat) : Option Dimension := s.dimensions[i]?

/-- Modelled from the spec: the level types of `taco/format.h`. -/
inductive LevelType where
  | Dense
  | Sparse
deriving DecidableEq, Repr

/-- Modelled from the spec: `Format` of `taco/format.h`, a sequence of level
types and an ordering that maps a storage level to a logical dimension. -/
structure Format where
  levelTypes : List LevelType
  ordering : List Nat
deriving DecidableEq, Repr

/-- Modelled from the spec: the `Format` constructor without an ordering uses
the identity ordering. -/
def Format.ofLevelTypes (levelTypes : List LevelType) : Format :=
  ⟨levelTypes, List.range levelTypes.length⟩

/-! ## Index variables -/

/-- Handle `IndexVar`: a shared pointer to an `IndexVar::Content`. -/
structure IndexVar where
  content : Nat
deriving DecidableEq, Repr

/-- Heap cell `IndexVar::Content`. -/
structure IndexVar.Content where
  name : String
deriving DecidableEq, Repr

/-- Handle `TensorVar`: a shared pointer to a `TensorVar::Content`. -/
structure TensorVar where
  content : Nat
deriving DecidableEq, Repr

/-! ## Expression nodes -/

/-- Handle `IndexExpr`: a pointer `ptr` to an immutable expression node, or no
node at all (`undefined`, the default constructed handle).  Every node carries
its own address `ptr`.  The node classes are declared in
`taco/expr/expr_nodes.h`, which is not among the sources; the variants and
their children follow the constructors used in `expr.cpp`
(`IntImmNode`, `FloatImmNode`, `DoubleImmNode`, `NegNode`, `AddNode`,
`SubNode`, `MulNode`, `DivNode`, `Access::Node`).  Floating point payloads are
kept as their bit patterns. -/
inductive IndexExpr where
  | undefined
  | access (ptr : Nat) (tensorVar : TensorVar) (indexVars : List IndexVar)
  | intImm (ptr : Nat) (val : Int)
  | floatImm (ptr : Nat) (bits : Nat)
  | doubleImm (ptr : Nat) (bits : Nat)
  | neg (ptr : Nat) (a : IndexExpr)
  | add (ptr : Nat) (a b : IndexExpr)
  | sub (ptr : Nat) (a b : IndexExpr)
  | mul (ptr : Nat) (a b : IndexExpr)
  | div (ptr : Nat) (a b : IndexExpr)
deriving DecidableEq, Repr

/-- Test `IndexExpr::defined`: the handle points to a node. -/
def IndexExpr.defined : IndexExpr → Bool
  | .undefined => false
  | _ => true

/-- The node address held by the handle (`IndexExpr::ptr`), `none` for the
undefined handle. -/
def IndexExpr.ptr : IndexExpr → Option Nat
  | .undefined => none
  | .access p _ _ => some p
  | .intImm p _ => some p
  | .floatImm p _ => some p
  | .doubleImm p _ => some p
  | .neg p _ => some p
  | .add p _ _ => some p
  | .sub p _ _ => some p
  | .mul p _ _ => some p
  | .div p _ _ => some p

/-- The operand handles stored in a node, left to right. -/
def IndexExpr.children : IndexExpr → List IndexExpr
  | .neg _ a => [a]
  | .add _ a b => [a, b]
  | .sub _ a b => [a, b]
  | .mul _ a b => [a, b]
  | .div _ a b => [a, b]
  | _ => []

/-- All nodes strictly below the root of an expression, in pre-order. -/
def IndexExpr.descendants : IndexExpr → List IndexExpr
  | .neg _ a => a :: a.descendants
  | .add _ a b => a :: a.descendants ++ b :: b.descendants
  | .sub _ a b => a :: a.descendants ++ b :: b.descendants
  | .mul _ a b => a :: a.descendants ++ b :: b.descendants
  | .div _ a b => a :: a.descendants ++ b :: b.descendants
  | _ => []

/-- An `Access` handle: an `IndexExpr` whose node is an `Access::Node`. -/
structure Access where
  ptr : Nat
  tensorVar : TensorVar
  indexVars : List IndexVar
deriving DecidableEq, Repr

/-- The conversion `static_cast<IndexExpr>(access)`. -/
def Access.toIndexExpr (a : Access) : IndexExpr :=
  .access a.ptr a.tensorVar a.indexVars

/-- Accessor `Access::getTensorVar`. -/
def Access.getTensorVar (a : Access) : TensorVar := a.tensorVar

/-- Accessor `Access::getIndexVars`. -/
def Access.getIndexVars (a : Access) : List IndexVar := a.indexVars

/-! ## Operator splits and schedules -/

/-- Record `OperatorSplit(this, old, left, right)`: the address of the owning
node and the three index variables. -/
structure OperatorSplit where
  expr : Nat
  old : IndexVar
  left : IndexVar
  right : IndexVar
deriving DecidableEq, Repr

/-- Modelled from the spec: `Schedule` of `taco/expr/schedule.h` (not among the
sources), the collection of operator splits in order of discovery. -/
structure Schedule where
  operatorSplits : List OperatorSplit
deriving DecidableEq, Repr

/-- Modelled from the spec: `Schedule::addOperatorSplit` appends, duplicates are
kept. -/
def Schedule.addOperatorSplit (sch : Schedule) (split : OperatorSplit) : Schedule :=
  ⟨sch.operatorSplits ++ [split]⟩

/-- Modelled from the spec: `Schedule::clearOperatorSplits`. -/
def Schedule.clearOperatorSplits (_sch : Schedule) : Schedule := ⟨[]⟩

/-! ## The heap -/

/-- Heap cell `TensorVar::Content`. -/
structure TensorVar.Content where
  name : String
  type : TensorType
  format : Format
  freeVars : List IndexVar
  indexExpr : IndexExpr
  accumulate : Bool
  schedule : Schedule
deriving DecidableEq, Repr

/-- The mutable memory reachable from the handles: the contents of index and
tensor variables, by address, and for each expression node address the vector
`*operatorSplits` the node owns. -/
structure State where
  indexVars : Nat → IndexVar.Content
  tensorVars : Nat → TensorVar.Content
  operatorSplits : Nat → List OperatorSplit
  nextIndexVar : Nat
  nextTensorVar : Nat

/-- A heap without any allocated variable; every node owns an empty vector of
operator splits, as set up by `ExprNode::ExprNode`. -/
def State.init : State where
  indexVars := fun _ => ⟨""⟩
  tensorVars := fun _ =>
    ⟨"", ⟨.f64, ⟨[]⟩⟩, ⟨[], []⟩, [], .undefined, false, ⟨[]⟩⟩
  operatorSplits := fun _ => []
  nextIndexVar := 0
  nextTensorVar := 0

/-- Constructor `IndexVar::IndexVar(const std::string& name)`: allocates a new
content and stores the name. -/
def IndexVar.new (s : State) (name : String) : IndexVar × State :=
  (⟨s.nextIndexVar⟩,
   { s with indexVars := Function.update s.indexVars s.nextIndexVar ⟨name⟩,
            nextIndexVar := s.nextIndexVar + 1 })

/-- Accessor `IndexVar::getName`. -/
def IndexVar.getName (s : State) (v : IndexVar) : String := (s.indexVars v.content).name

/-- Constructor `TensorVar::TensorVar(name, type, format)`: allocates a new
content and stores name, type and format.  The free variables and the schedule
are empty and the index expression is undefined; `accumulate` is a `bool` that
the constructor does not initialise, its value `accumulate0` is whatever the
allocation holds. -/
def TensorVar.new (s : State) (name : String) (type : TensorType) (format : Format)
    (accumulate0 : Bool) : TensorVar × State :=
  (⟨s.nextTensorVar⟩,
   { s with tensorVars := Function.update s.tensorVars s.nextTensorVar
              ⟨name, type, format, [], .undefined, accumulate0, ⟨[]⟩⟩,
            nextTensorVar := s.nextTensorVar + 1 })

/-- Accessor `TensorVar::getName`. -/
def TensorVar.getName (s : State) (t : TensorVar) : String := (s.tensorVars t.content).name

/-- Accessor `TensorVar::getType`. -/
def TensorVar.getType (s : State) (t : TensorVar) : TensorType := (s.tensorVars t.content).type

/-- Accessor `TensorVar::getFormat`. -/
def TensorVar.getFormat (s : State) (t : TensorVar) : Format := (s.tensorVars t.content).format

/-- Accessor `TensorVar::getFreeVars`. -/
def TensorVar.getFreeVars (s : State) (t : TensorVar) : List IndexVar :=
  (s.tensorVars t.content).freeVars

/-- Accessor `TensorVar::getIndexExpr`. -/
def TensorVar.getIndexExpr (s : State) (t : TensorVar) : IndexExpr :=
  (s.tensorVars t.content).indexExpr

/-- Accessor `TensorVar::isAccumulating`. -/
def TensorVar.isAccumulating (s : State) (t : TensorVar) : Bool :=
  (s.tensorVars t.content).accumulate

/-- Comparison `operator==(const TensorVar&, const TensorVar&)`: the content
pointers are compared. -/
def TensorVar.eq (a b : TensorVar) : Bool := a.content == b.content

/-- Comparison `operator==(const IndexVar&, const IndexVar&)`: the content
pointers are compared. -/
def IndexVar.eq (a b : IndexVar) : Bool := a.content == b.content

/-- Comparison `operator<(const IndexVar&, const IndexVar&)`: the content
pointers are compared. -/
def IndexVar.lt (a b : IndexVar) : Bool := decide (a.content < b.content)

/-- Comparison `operator<(const TensorVar&, const TensorVar&)`: the content
pointers are compared. -/
def TensorVar.lt (a b : TensorVar) : Bool := decide (a.content < b.content)

/-! ## Errors and the checks of `error/error_checks.h` -/

/-- The failures raised by `taco_uassert` in `expr.cpp`, named after the error
kinds of the spec: the messages `error::expr_dimension_mismatch`,
`error::expr_transposition`, `error::expr_distribution` and
`"Cannot reassign"`.  The spec names two more kinds, `ArityMismatch` and
`MalformedFormat`; no `taco_uassert` of `expr.cpp` raises them. -/
inductive Error where
  | DimensionMismatch
  | UnsupportedTransposition
  | UnsupportedDistribution
  | AlreadyBound
  | ArityMismatch
  | MalformedFormat
deriving DecidableEq, Repr

/-- The three predicates of `error/error_checks.h`, which is not among the
sources.  They are parameters of the embedding; they read the heap (the types
of the tensors under the accesses) and do not change it. -/
structure ErrorChecks where
  dimensionsTypecheck : State → List IndexVar → IndexExpr → Shape → Bool
  containsTranspose : State → Format → List IndexVar → IndexExpr → Bool
  containsDistribution : State → List IndexVar → IndexExpr → Bool

/-- What a call that may raise leaves behind: the error raised, if any, and the
heap at the point where the call returned or raised. -/
structure Outcome where
  error : Option Error
  state : State

/-- Method `TensorVar::setIndexExpression(freeVars, indexExpr, accumulate)`:
three `taco_uassert`s in sequence, then the three stores. -/
def TensorVar.setIndexExpression (chk : ErrorChecks) (s : State) (this : TensorVar)
    (freeVars : List IndexVar) (indexExpr : IndexExpr) (accumulate : Bool) : Outcome :=
  let shape := (this.getType s).getShape
  if !chk.dimensionsTypecheck s freeVars indexExpr shape then
    ⟨some .DimensionMismatch, s⟩
  else if chk.containsTranspose s (this.getFormat s) freeVars indexExpr then
    ⟨some .UnsupportedTransposition, s⟩
  else if chk.containsDistribution s freeVars indexExpr then
    ⟨some .UnsupportedDistribution, s⟩
  else
    let c := s.tensorVars this.content
    ⟨none, { s with tensorVars := Function.update s.tensorVars this.content
                      { c with freeVars := freeVars, indexExpr := indexExpr,
                               accumulate := accumulate } }⟩

/-- Operator `Access::operator=(const IndexExpr&)`.  The call
`setIndexExpression(getIndexVars(), expr)` leaves out the third argument; its
default is declared in `taco/expr/expr.h`, which is not among the sources, and
is modelled from the spec: assignment does not accumulate. -/
def Access.assign (chk : ErrorChecks) (s : State) (this : Access) (expr : IndexExpr) : Outcome :=
  let result := this.getTensorVar
  if (result.getIndexExpr s).defined then
    ⟨some .AlreadyBound, s⟩
  else
    result.setIndexExpression chk s this.getIndexVars expr false

/-- Operator `Access::operator=(const Access&)`. -/
def Access.assignAccess (chk : ErrorChecks) (s : State) (this : Access) (expr : Access) : Outcome :=
  this.assign chk s expr.toIndexExpr

/-- Operator `Access::operator+=(const IndexExpr&)`. -/
def Access.accumulate (chk : ErrorChecks) (s : State) (this : Access) (expr : IndexExpr) :
    Outcome :=
  let result := this.getTensorVar
  if (result.getIndexExpr s).defined then
    ⟨some .AlreadyBound, s⟩
  else
    result.setIndexExpression chk s this.getIndexVars expr true

/-- Operator `Access::operator+=(const Access&)`. -/
def Access.accumulateAccess (chk : ErrorChecks) (s : State) (this : Access) (expr : Access) :
    Outcome :=
  this.accumulate chk s expr.toIndexExpr

/-! ## Operator splits -/

/-- Method `ExprNode::splitOperator` of the node at address `this`: pushes
`OperatorSplit(this, old, left, right)` onto the vector the node owns. -/
def ExprNode.splitOperator (s : State) (this : Nat) (old left right : IndexVar) : State :=
  { s with operatorSplits := Function.update s.operatorSplits this
             (s.operatorSplits this ++ [⟨this, old, left, right⟩]) }

/-- Method `ExprNode::getOperatorSplits` of the node at address `this`. -/
def ExprNode.getOperatorSplits (s : State) (this : Nat) : List OperatorSplit :=
  s.operatorSplits this

/-- Method `IndexExpr::splitOperator`: forwards to the node behind the handle.
An undefined handle has no node to forward to; the call has no defined result
and is embedded as `none`. -/
def IndexExpr.splitOperator (s : State) (e : IndexExpr) (old left right : IndexVar) :
    Option State :=
  match e.ptr with
  | none => none
  | some p => some (ExprNode.splitOperator s p old left right)

/-- Repeating `IndexExpr::splitOperator` with the same arguments `n` times. -/
def IndexExpr.splitOperatorTimes (e : IndexExpr) (old left right : IndexVar) :
    Nat → State → Option State
  | 0, s => some s
  | n + 1, s =>
    match e.splitOperator s old left right with
    | none => none
    | some s1 => e.splitOperatorTimes old left right n s1

/-! ## Schedules of tensor variables -/

/-- The visitor `GetSchedule` of `TensorVar::getSchedule`, started by
`IndexExpr::accept` on an expression.  The struct overrides
`visit(const BinaryExprNode*)` only: at an `Add`, `Sub`, `Mul` or `Div` node it
adds the operator splits of that node to its schedule and returns, without
visiting the operands.  The other cases are those of the base class
`ExprVisitor` (`taco/expr/expr_visitor.h`, not among the sources), modelled
from the spec: an access or an immediate has no children and nothing is done,
a `Neg` node visits its operand.  Accepting through an undefined handle has no
defined result and is embedded as `none`. -/
def GetSchedule.accept (s : State) : IndexExpr → Schedule → Option Schedule
  | .undefined, _ => none
  | .access _ _ _, sch => some sch
  | .intImm _ _, sch => some sch
  | .floatImm _ _, sch => some sch
  | .doubleImm _ _, sch => some sch
  | .neg _ a, sch => GetSchedule.accept s a sch
  | .add p _ _, sch => some ((ExprNode.getOperatorSplits s p).foldl Schedule.addOperatorSplit sch)
  | .sub p _ _, sch => some ((ExprNode.getOperatorSplits s p).foldl Schedule.addOperatorSplit sch)
  | .mul p _ _, sch => some ((ExprNode.getOperatorSplits s p).foldl Schedule.addOperatorSplit sch)
  | .div p _ _, sch => some ((ExprNode.getOperatorSplits s p).foldl Schedule.addOperatorSplit sch)

/-- Method `TensorVar::getSchedule`: clears the schedule of the content, lets
the visitor collect into it and returns it.  Modelled from the spec: the
visitor works on a copy of the `Schedule` handle, and the copy shares the
collection with the member, so that what the visitor adds is what the member
holds afterwards. -/
def TensorVar.getSchedule (s : State) (this : TensorVar) : Option (Schedule × State) :=
  let c := s.tensorVars this.content
  match GetSchedule.accept s (this.getIndexExpr s) c.schedule.clearOperatorSplits with
  | none => none
  | some sch =>
    some (sch, { s with tensorVars := Function.update s.tensorVars this.content
                          { c with schedule := sch } })

/-- The schedule as the spec words it: the operator splits recorded on every
node of an expression, collected in pre-order. -/
def IndexExpr.recordedSplits (s : State) : IndexExpr → List OperatorSplit
  | .undefined => []
  | .access p _ _ => s.operatorSplits p
  | .intImm p _ => s.operatorSplits p
  | .floatImm p _ => s.operatorSplits p
  | .doubleImm p _ => s.operatorSplits p
  | .neg p a => s.operatorSplits p ++ a.recordedSplits s
  | .add p a b => s.operatorSplits p ++ a.recordedSplits s ++ b.recordedSplits s
  | .sub p a b => s.operatorSplits p ++ a.recordedSplits s ++ b.recordedSplits s
  | .mul p a b => s.operatorSplits p ++ a.recordedSplits s ++ b.recordedSplits s
  | .div p a b => s.operatorSplits p ++ a.recordedSplits s ++ b.recordedSplits s

/-- The operator splits recorded on the binary nodes (`Add`, `Sub`, `Mul`,
`Div`) of an expression, collected in pre-order. -/
def IndexExpr.binarySplits (s : State) : IndexExpr → List OperatorSplit
  | .neg _ a => a.binarySplits s
  | .add p a b => s.operatorSplits p ++ a.binarySplits s ++ b.binarySplits s
  | .sub p a b => s.operatorSplits p ++ a.binarySplits s ++ b.binarySplits s
  | .mul p a b => s.operatorSplits p ++ a.binarySplits s ++ b.binarySplits s
  | .div p a b => s.operatorSplits p ++ a.binarySplits s ++ b.binarySplits s
  | _ => []

/-- Every operand handle stored in the expression is defined, and so is the
expression itself. -/
def IndexExpr.operandsDefined : IndexExpr → Bool
  | .undefined => false
  | .neg _ a => a.operandsDefined
  | .add _ a b => a.operandsDefined && b.operandsDefined
  | .sub _ a b => a.operandsDefined && b.operandsDefined
  | .mul _ a b => a.operandsDefined && b.operandsDefined
  | .div _ a b => a.operandsDefined && b.operandsDefined
  | _ => true

/-- No operator split is recorded on a binary node that lies below another
binary node. -/
def IndexExpr.noNestedSplits (s : State) : IndexExpr → Bool
  | .neg _ a => a.noNestedSplits s
  | .add _ a b => (a.binarySplits s).isEmpty && (b.binarySplits s).isEmpty
  | .sub _ a b => (a.binarySplits s).isEmpty && (b.binarySplits s).isEmpty
  | .mul _ a b => (a.binarySplits s).isEmpty && (b.binarySplits s).isEmpty
  | .div _ a b => (a.binarySplits s).isEmpty && (b.binarySplits s).isEmpty
  | _ => true

/-! ## The dimension typecheck -/

/-- Modelled from the spec: agreement of two dimensions; an unknown dimension
agrees with anything, two known ones agree iff they are equal. -/
def Dimension.agrees : Dimension → Dimension → Bool
  | .fixed a, .fixed b => a == b
  | _, _ => true

/-- The accesses of an expression, in pre-order: the tensor and the index
variables of each `Access` node. -/
def IndexExpr.accesses : IndexExpr → List (TensorVar × List IndexVar)
  | .access _ t vars => [(t, vars)]
  | .neg _ a => a.accesses
  | .add _ a b => a.accesses ++ b.accesses
  | .sub _ a b => a.accesses ++ b.accesses
  | .mul _ a b => a.accesses ++ b.accesses
  | .div _ a b => a.accesses ++ b.accesses
  | _ => []

/-- Modelled from the spec: one insertion into the mapping from index variables
to dimensions; it succeeds if the key is absent or the stored dimension agrees
with the new one. -/
def insertRange (m : List (IndexVar × Dimension)) (p : IndexVar × Dimension) :
    Option (List (IndexVar × Dimension)) :=
  match m.find? (fun q => q.1.eq p.1) with
  | none => some (m ++ [p])
  | some q => if q.2.agrees p.2 then some m else none

/-- Modelled from the spec: insertion of a sequence of pairs, counting the
insertions that fail. -/
def insertRanges : List (IndexVar × Dimension) → List (IndexVar × Dimension) →
    List (IndexVar × Dimension) × Nat
  | m, [] => (m, 0)
  | m, p :: ps =>
    match insertRange m p with
    | none => let r := insertRanges m ps; (r.1, r.2 + 1)
    | some m1 => insertRanges m1 ps

/-- Modelled from the spec: `error::dimensionsTypecheck` of
`error/error_checks.h` (not among the sources).  The mapping is seeded with the
pairs of a free variable and the dimension of the left-hand side at its
position, then every access of the expression contributes the pairs of its
index variables and the dimensions of its tensor; the check passes when no
insertion fails. -/
def dimensionsTypecheck (s : State) (freeVars : List IndexVar) (indexExpr : IndexExpr)
    (shape : Shape) : Bool :=
  let seed := freeVars.zip shape.dimensions
  let fromAccesses := indexExpr.accesses.flatMap
    (fun a => a.2.zip (a.1.getType s).getShape.dimensions)
  (insertRanges [] (seed ++ fromAccesses)).2 == 0

/-- The checks used to evaluate the embedding on examples: the dimension
typecheck of the spec, and detectors for transposition and distribution that
find nothing. -/
def sampleChecks : ErrorChecks where
  dimensionsTypecheck := dimensionsTypecheck
  containsTranspose := fun _ _ _ _ => false
  containsDistribution := fun _ _ _ => false

/-! ## Construction of accesses -/

/-- Constructor `Access::Access(const TensorVar& tensor, const
std::vector<IndexVar>& indices)`: allocates a `Node` holding the tensor and the
index variables, the two members that `getTensorVar` and `getIndexVars` read,
and wraps its address `ptr`.  The constructor contains no `taco_uassert`. -/
def Access.new (ptr : Nat) (tensor : TensorVar) (indices : List IndexVar) :
    Except Error Access :=
  .ok ⟨ptr, tensor, indices⟩

/-! ## Index variables of a tensor variable and their ranges -/

/-- Insertion `std::set<IndexVar>::insert`: the set is kept as the list of its
elements in increasing order of `operator<`; an element that is already in the
set (neither smaller nor greater than a stored one) is not inserted again. -/
def setInsert (v : IndexVar) : List IndexVar → List IndexVar
  | [] => [v]
  | w :: set =>
    if v.lt w then v :: w :: set
    else if w.lt v then w :: setInsert v set
    else w :: set

/-- Insertion `std::map<IndexVar,Dimension>::insert`: the map is kept as the
list of its entries in increasing order of the keys; when the key is already
present the map is left as it is. -/
def mapInsert (v : IndexVar) (d : Dimension) :
    List (IndexVar × Dimension) → List (IndexVar × Dimension)
  | [] => [(v, d)]
  | e :: map =>
    if v.lt e.1 then (v, d) :: e :: map
    else if e.1.lt v then e :: mapInsert v d map
    else e :: map

/-- Function `getIndexVars(const TensorVar&)`: a set built from the free
variables, into which the index variables of every access of the index
expression are inserted.  Modelled from the spec: `match` (declared in
`taco/expr/expr_visitor.h`, not among the sources) calls the handler on every
`Access` node in pre-order. -/
def getIndexVars (s : State) (tensor : TensorVar) : List IndexVar :=
  let indexVars := (tensor.getFreeVars s).foldl (fun set v => setInsert v set) []
  (tensor.getIndexExpr s).accesses.foldl
    (fun set op => op.2.foldl (fun set v => setInsert v set) set) indexVars

/-- The loop `for (i = start; ...) indexVarRanges.insert({vars[i],
shape.getDimension(i)})` of `getIndexVarRanges` over the remaining variables.
Reading a dimension past the end of the shape has no defined result; the loop
then has none either. -/
def insertDimensions (shape : Shape) :
    List IndexVar → Nat → List (IndexVar × Dimension) → Option (List (IndexVar × Dimension))
  | [], _, map => some map
  | v :: vars, i, map =>
    match shape.getDimension i with
    | none => none
    | some d => insertDimensions shape vars (i + 1) (mapInsert v d map)

/-- The handler of `getIndexVarRanges` called on the accesses of the index
expression, one after the other. -/
def insertAccessDimensions (s : State) :
    List (TensorVar × List IndexVar) → List (IndexVar × Dimension) →
      Option (List (IndexVar × Dimension))
  | [], map => some map
  | op :: ops, map =>
    match insertDimensions (op.1.getType s).getShape op.2 0 map with
    | none => none
    | some map1 => insertAccessDimensions s ops map1

/-- Function `getIndexVarRanges(const TensorVar&)`: first the free variables
are inserted with the dimensions of the tensor itself, then the index
variables of every access of the index expression, in pre-order, with the
dimensions of the tensor of the access. -/
def getIndexVarRanges (s : State) (tensor : TensorVar) :
    Option (List (IndexVar × Dimension)) :=
  match insertDimensions (tensor.getType s).getShape (tensor.getFreeVars s) 0 [] with
  | none => none
  | some map => insertAccessDimensions s (tensor.getIndexExpr s).accesses map

/-- The insertions that `getIndexVarRanges` makes, in the order in which it
makes them, when no dimension is read past the end of a shape: the free
variables with the dimensions of the tensor, then the index variables of
every access with the dimensions of its tensor. -/
def rangeInsertions (s : State) (tensor : TensorVar) : List (IndexVar × Dimension) :=
  (tensor.getFreeVars s).zip (tensor.getType s).getShape.dimensions ++
    (tensor.getIndexExpr s).accesses.flatMap
      (fun op => op.2.zip (op.1.getType s).getShape.dimensions)

/-! ## The packer

`test/storage-tests.cpp` packs a tensor of doubles and compares the result with
the expected index arrays and values.  The packer itself (`Tensor::pack`,
`packed_tensor.h`) is not among the sources and is modelled from the spec; the
model is generic in the scalar type, of which only a zero and an addition are
used. -/

/-- Modelled from the spec: `CoordinateEntry`, the coordinates of one stored
component and its value. -/
structure CoordinateEntry (α : Type) where
  coords : List Nat
  value : α
deriving DecidableEq, Repr

/-- Modelled from the spec: `PackedTensor`.  As in the test, `indices` holds one
entry per level and each entry is a list of arrays: none for a dense level, the
two arrays segments and indices for a sparse level. -/
structure PackedTensor (α : Type) where
  indices : List (List (List Nat))
  values : List α
  nnz : Nat
deriving DecidableEq, Repr

/-- Accessor `PackedTensor::getIndices`. -/
def PackedTensor.getIndices {α : Type} (p : PackedTensor α) : List (List (List Nat)) := p.indices

/-- Accessor `PackedTensor::getValues`. -/
def PackedTensor.getValues {α : Type} (p : PackedTensor α) : List α := p.values

/-- Accessor `PackedTensor::getNnz`. -/
def PackedTensor.getNnz {α : Type} (p : PackedTensor α) : Nat := p.nnz

/-- Modelled from the spec: step 1 of the packer, the coordinates (or the
dimension sizes) in storage order: position `k` holds the component of the
logical dimension `ordering[k]`. -/
def permute (ordering : List Nat) (coords : List Nat) : List Nat :=
  ordering.map (fun d => coords.getD d 0)

/-- Lexicographic comparison of coordinates, level 0 major. -/
def lexLE : List Nat → List Nat → Bool
  | [], _ => true
  | _ :: _, [] => false
  | a :: as, b :: bs => decide (a < b) || (a == b && lexLE as bs)

/-- The order in which step 2 sorts the entries: lexicographic on the
coordinates. -/
def CoordinateEntry.le {α : Type} (a b : CoordinateEntry α) : Prop :=
  lexLE a.coords b.coords = true

instance CoordinateEntry.decidableLE {α : Type} : DecidableRel (@CoordinateEntry.le α) :=
  fun a b => inferInstanceAs (Decidable (lexLE a.coords b.coords = true))

/-- Modelled from the spec: step 2 of the packer, a stable lexicographic sort
(insertion sort: an entry is placed before the first entry that is not smaller,
so entries with equal coordinates keep their insertion order). -/
def sortEntries {α : Type} (entries : List (CoordinateEntry α)) : List (CoordinateEntry α) :=
  entries.insertionSort CoordinateEntry.le

/-- The entries of a parent group whose coordinate at the current level is `j`,
with that coordinate removed: the child group below slot `j`. -/
def child {α : Type} (j : Nat) (g : List (CoordinateEntry α)) : List (CoordinateEntry α) :=
  g.filterMap (fun e =>
    match e.coords with
    | c :: cs => if c = j then some ⟨cs, e.value⟩ else none
    | [] => none)

/-- The coordinates of the entries of a group at the current level. -/
def levelCoords {α : Type} (g : List (CoordinateEntry α)) : List Nat :=
  g.filterMap (fun e => e.coords.head?)

/-- The distinct values of a list in the order of their first appearance. -/
def distinct : List Nat → List Nat
  | [] => []
  | x :: xs => x :: (distinct xs).filter (fun y => y ≠ x)

/-- Modelled from the spec: a dense level expands every parent group to
`size` slots, one child group per coordinate value. -/
def denseChildren {α : Type} (size : Nat) (groups : List (List (CoordinateEntry α))) :
    List (List (CoordinateEntry α)) :=
  groups.flatMap (fun g => (List.range size).map (fun j => child j g))

/-- Modelled from the spec: at a sparse level every parent group contributes
its distinct coordinate values, in the order in which they appear after
sorting, to `indices[k]`. -/
def sparseIndices {α : Type} (groups : List (List (CoordinateEntry α))) : List Nat :=
  groups.flatMap (fun g => distinct (levelCoords g))

/-- Cumulative counts: `start`, then `start` extended by each count in turn. -/
def cumulative (start : Nat) : List Nat → List Nat
  | [] => [start]
  | c :: cs => start :: cumulative (start + c) cs

/-- Modelled from the spec: `segments[k]` of a sparse level starts with 0 and
each subsequent entry extends by the count of distinct children of a parent
group. -/
def sparseSegments {α : Type} (groups : List (List (CoordinateEntry α))) : List Nat :=
  cumulative 0 (groups.map (fun g => (distinct (levelCoords g)).length))

/-- Modelled from the spec: below a sparse level there is one child group per
stored index. -/
def sparseChildren {α : Type} (groups : List (List (CoordinateEntry α))) :
    List (List (CoordinateEntry α)) :=
  groups.flatMap (fun g => (distinct (levelCoords g)).map (fun j => child j g))

/-- The sum of the values that share one slot, taken in their order; 0 for a
slot without a value. -/
def sumValues {α : Type} [Zero α] [Add α] : List α → α
  | [] => 0
  | v :: vs => vs.foldl (fun x y => x + y) v

/-- Modelled from the spec: steps 3 and 4 of the packer on the entries in
storage order, level by level.  `groups` are the parent groups of the current
level, each with the entries that fall into it; `dense` tells whether the
groups are the slots of a dense level.  A dense level stores no arrays and
expands every group to `size` slots; a sparse level stores segments and
indices and has one child group per index.  After the last level the values
are emitted: a slot of a dense level holds the sum of its entries (0 when
there is none, duplicates summed), below a sparse level the values of the
entries are emitted in sorted order (duplicates are retained).  The expected
values of the test (`{0, 1, 0, 2, 0, 3}` for the 3x3 matrix in format `sd`)
fix the slots of the dense levels. -/
def packLevels {α : Type} [Zero α] [Add α] :
    List (LevelType × Nat) → Bool → List (List (CoordinateEntry α)) →
      List (List (List Nat)) × List α
  | [], dense, groups =>
    ([], if dense then groups.map (fun g => sumValues (g.map (fun e => e.value)))
         else groups.flatMap (fun g => g.map (fun e => e.value)))
  | (.Dense, size) :: levels, _, groups =>
    let r := packLevels levels true (denseChildren size groups)
    ([] :: r.1, r.2)
  | (.Sparse, _) :: levels, _, groups =>
    let r := packLevels levels false (sparseChildren groups)
    ([sparseSegments groups, sparseIndices groups] :: r.1, r.2)

/-- The storage levels of a tensor: the level types of the format, each with
the size of the dimension stored at that level. -/
def storageLevels (dimensions : List Nat) (format : Format) : List (LevelType × Nat) :=
  format.levelTypes.zip (permute format.ordering dimensions)

/-- The entries in storage order, sorted (steps 1 and 2 of the packer). -/
def storageEntries {α : Type} (format : Format) (entries : List (CoordinateEntry α)) :
    List (CoordinateEntry α) :=
  sortEntries (entries.map (fun e => ⟨permute format.ordering e.coords, e.value⟩))

/-- Modelled from the spec: the packer (`Tensor::pack`, whose result the test
reads through `getPackedTensor`).  The entries are brought into storage order
and sorted, then compressed level by level starting from a single parent group
that holds all entries; `nnz` is the length of the values.  A tensor without
dimensions is packed as one dense slot. -/
def pack {α : Type} [Zero α] [Add α] (dimensions : List Nat) (format : Format)
    (entries : List (CoordinateEntry α)) : PackedTensor α :=
  let r := packLevels (storageLevels dimensions format) true [storageEntries format entries]
  ⟨r.1, r.2, r.2.length⟩

/-! ### Reading a packed tensor -/

/-- The coordinates lie inside the dimensions: one coordinate per dimension,
each below the size. -/
def inBounds : List Nat → List Nat → Bool
  | [], [] => true
  | n :: ns, c :: cs => decide (c < n) && inBounds ns cs
  | _, _ => false

/-- The row-major linearised position of coordinates in a dense array of the
given dimensions. -/
def linearise : List Nat → List Nat → Nat
  | _ :: ns, c :: cs => c * ns.prod + linearise ns cs
  | _, _ => 0

/-- The dense image of a list of entries: one value per position of the dense
array of the given dimensions, the sum of the values of the entries whose
linearised coordinates are that position. -/
def denseImage {α : Type} [Zero α] [Add α] (dimensions : List Nat)
    (entries : List (CoordinateEntry α)) : List α :=
  (List.range dimensions.prod).map (fun p =>
    sumValues ((entries.filter (fun e => linearise dimensions e.coords = p)).map
      (fun e => e.value)))

/-- The number of parent groups the spec counts at each level, checked against
the packed index arrays: `parents` groups at the current level; a dense level
stores no arrays and has `parents * size` groups below it; a sparse level
stores segments that start with 0, do not decrease, have one entry more than
there are parent groups and end with the number of stored indices, which is
the number of groups below it. -/
def segmentsWellFormed : List (LevelType × Nat) → Nat → List (List (List Nat)) → Prop
  | [], _, idx => idx = []
  | (.Dense, size) :: levels, parents, idx =>
    ∃ rest, idx = [] :: rest ∧ segmentsWellFormed levels (parents * size) rest
  | (.Sparse, _) :: levels, parents, idx =>
    ∃ seg ind rest, idx = [seg, ind] :: rest ∧
      seg.head? = some 0 ∧ seg.Sorted (fun a b => a ≤ b) ∧ seg.length = parents + 1 ∧
      seg.getLast? = some ind.length ∧ segmentsWellFormed levels ind.length rest

/-- The slot count of the spec: start from `parents`, multiply by the size at a
dense level, replace by the number of stored indices at a sparse level. -/
def slotCount : List (LevelType × Nat) → Nat → List (List (List Nat)) → Nat
  | (.Dense, size) :: levels, parents, _ :: idx => slotCount levels (parents * size) idx
  | (.Sparse, _) :: levels, _, [_, ind] :: idx => slotCount levels ind.length idx
  | _, parents, _ => parents

/-- The slot reached by walking coordinates through the levels, starting in
parent group `pos`: at a dense level the slot `pos * size + c`, at a sparse
level the position of `c` among the indices of the segment of `pos`. -/
def slotOf : List (LevelType × Nat) → List (List (List Nat)) → Nat → List Nat → Option Nat
  | [], _, pos, _ => some pos
  | (.Dense, size) :: levels, _ :: idx, pos, c :: cs =>
    if c < size then slotOf levels idx (pos * size + c) cs else none
  | (.Sparse, _) :: levels, [seg, ind] :: idx, pos, c :: cs =>
    match seg[pos]?, seg[pos + 1]? with
    | some a, some b =>
      let slice := (ind.drop a).take (b - a)
      if c ∈ slice then slotOf levels idx (a + slice.indexOf c) cs else none
    | _, _ => none
  | _, _, _, _ => none

/-- The level walk of a packed tensor from parent position `pos`: at a sparse
level every position `p` of the segment of `pos`, from `segments[pos]` up to
`segments[pos + 1]`, gives the coordinate `indices[p]` and is the parent of the
next level; at a dense level every
coordinate below the size gives the parent `pos * size + c`; after the last
level the value at the position is read. -/
def walk {α : Type} : List (LevelType × Nat) → List (List (List Nat)) → List α → Nat →
    List (List Nat × α)
  | [], _, values, pos =>
    match values[pos]? with
    | some v => [([], v)]
    | none => []
  | (.Dense, size) :: levels, _ :: idx, values, pos =>
    (List.range size).flatMap (fun c =>
      (walk levels idx values (pos * size + c)).map (fun r => (c :: r.1, r.2)))
  | (.Sparse, _) :: levels, [seg, ind] :: idx, values, pos =>
    match seg[pos]?, seg[pos + 1]? with
    | some a, some b =>
      (((ind.drop a).take (b - a)).enumFrom a).flatMap (fun pc =>
        (walk levels idx values pc.1).map (fun r => (pc.2 :: r.1, r.2)))
    | _, _ => []
  | _, _, _, _ => []

/-- The coordinates fit the levels: one coordinate per level, and below the
size at every dense level. -/
def inLevels : List (LevelType × Nat) → List Nat → Bool
  | [], [] => true
  | (.Dense, size) :: levels, c :: cs => decide (c < size) && inLevels levels cs
  | (.Sparse, _) :: levels, _ :: cs => inLevels levels cs
  | _, _ => false

/-- The groups below the last level: the groups that `packLevels` reaches after
expanding every level. -/
def finalGroups {α : Type} : List (LevelType × Nat) → List (List (CoordinateEntry α)) →
    List (List (CoordinateEntry α))
  | [], groups => groups
  | (.Dense, size) :: levels, groups => finalGroups levels (denseChildren size groups)
  | (.Sparse, _) :: levels, groups => finalGroups levels (sparseChildren groups)

/-- The number of elements that the blocks before block `pos` contribute to a
concatenation of blocks. -/
def blockStart {β γ : Type} (h : β → List γ) (l : List β) (pos : Nat) : Nat :=
  ((l.take pos).map (fun y => (h y).length)).sum

/-- The entries of a group all have `n` coordinates left, and no two of them
have the same coordinates. -/
def groupOK {α : Type} (n : Nat) (g : List (CoordinateEntry α)) : Prop :=
  (∀ e ∈ g, e.coords.length = n) ∧ (g.map (fun e => e.coords)).Nodup

/-- The pair of coordinates and value of an entry. -/
def CoordinateEntry.toPair {α : Type} (e : CoordinateEntry α) : List Nat × α :=
  (e.coords, e.value)

/-! ### The tensors of the storage test -/

namespace Sample

/-- Format from its tag string, one level per character (`d` or `s`). -/
def format (tag : List Char) : Format :=
  Format.ofLevelTypes (tag.map (fun c => if c = 'd' then LevelType.Dense else LevelType.Sparse))

/-- Test tensor `d1a`: a vector of size 1 holding 1. -/
def d1a : List (CoordinateEntry Int) := [⟨[0], 1⟩]

/-- Test tensor `d5a`: a vector of size 5. -/
def d5a : List (CoordinateEntry Int) := [⟨[4], 2⟩, ⟨[1], 1⟩]

/-- Test tensor `d33a`: a 3x3 matrix. -/
def d33a : List (CoordinateEntry Int) := [⟨[0, 1], 1⟩, ⟨[2, 0], 2⟩, ⟨[2, 2], 3⟩]

/-- Test tensor `d233a`: a 2x3x3 tensor. -/
def d233a : List (CoordinateEntry Int) :=
  [⟨[0, 0, 0], 1⟩, ⟨[0, 0, 1], 2⟩, ⟨[0, 2, 2], 3⟩, ⟨[1, 0, 1], 4⟩, ⟨[1, 2, 0], 5⟩,
   ⟨[1, 2, 2], 6⟩]

/-- A vector of size 5 in which the coordinate 1 is listed twice. -/
def repeated : List (CoordinateEntry Int) := [⟨[1], 1⟩, ⟨[1], 2⟩]

end Sample

/-! ## Sample data -/

namespace Sample

/-- Index variable `i`, the first one allocated. -/
def i : IndexVar := ⟨0⟩

/-- Index variable `j`. -/
def j : IndexVar := ⟨1⟩

/-- Index variable `i1`. -/
def i1 : IndexVar := ⟨2⟩

/-- Index variable `i2`. -/
def i2 : IndexVar := ⟨3⟩

/-- A heap holding the four index variables. -/
def indexVarHeap : State :=
  (IndexVar.new (IndexVar.new (IndexVar.new (IndexVar.new State.init "i").2 "j").2 "i1").2 "i2").2

/-- The type of a 3x3 matrix of doubles. -/
def matrixType : TensorType := ⟨.f64, ⟨[.fixed 3, .fixed 3]⟩⟩

/-- The type of a vector of doubles of the given size. -/
def vectorType (n : Nat) : TensorType := ⟨.f64, ⟨[.fixed n]⟩⟩

/-- A heap with three unbound 3x3 dense matrices `A`, `B`, `C`. -/
def matrixHeap : State :=
  let dd := Format.ofLevelTypes [.Dense, .Dense]
  let s1 := (TensorVar.new indexVarHeap "A" matrixType dd false).2
  let s2 := (TensorVar.new s1 "B" matrixType dd false).2
  (TensorVar.new s2 "C" matrixType dd false).2

/-- A heap with three unbound dense vectors: `a` and `B` of size 3 and `C` of
the given size. -/
def vectorHeap (sizeC : Nat) : State :=
  let d := Format.ofLevelTypes [.Dense]
  let s1 := (TensorVar.new indexVarHeap "a" (vectorType 3) d false).2
  let s2 := (TensorVar.new s1 "B" (vectorType 3) d false).2
  (TensorVar.new s2 "C" (vectorType sizeC) d false).2

/-- The first tensor variable of a sample heap (`A`, `a`). -/
def A : TensorVar := ⟨0⟩

/-- The second tensor variable of a sample heap. -/
def B : TensorVar := ⟨1⟩

/-- The third tensor variable of a sample heap. -/
def C : TensorVar := ⟨2⟩

/-- The access `A(i,j)`. -/
def Aij : Access := ⟨10, A, [i, j]⟩

/-- The access `B(i,j)`. -/
def Bij : Access := ⟨11, B, [i, j]⟩

/-- The access `C(i,j)`. -/
def Cij : Access := ⟨12, C, [i, j]⟩

/-- The access `a(i)`. -/
def ai : Access := ⟨20, A, [i]⟩

/-- The access `B(i)`. -/
def Bi : Access := ⟨21, B, [i]⟩

/-- The access `C(i)`. -/
def Ci : Access := ⟨22, C, [i]⟩

/-- The expression `B(i) + C(i)`. -/
def sum : IndexExpr := .add 23 Bi.toIndexExpr Ci.toIndexExpr

/-- The expression `(B(i) + C(i)) * B(i)`. -/
def product : IndexExpr := .mul 24 sum Bi.toIndexExpr

/-- The matrix heap after `A(i,j) = B(i,j)`. -/
def boundMatrixHeap : State := (Aij.assign sampleChecks matrixHeap Bij.toIndexExpr).state

/-- The vector heap in which `splitOperator(i, i1, i2)` was called once on the
node at address `node` and then `a(i) = e` was bound. -/
def splitThenBind (node : Nat) (e : IndexExpr) : State :=
  (ai.assign sampleChecks (ExprNode.splitOperator (vectorHeap 3) node i i1 i2) e).state

/-- A heap with two unbound 3x3 matrices `A` and `B`; the format of `A` has a
single level although its type has two dimensions. -/
def malformedHeap : State :=
  let s1 := (TensorVar.new indexVarHeap "A" matrixType (Format.ofLevelTypes [.Dense]) false).2
  (TensorVar.new s1 "B" matrixType (Format.ofLevelTypes [.Dense, .Dense]) false).2

end Sample

/-! # Theorems -/

/-! ## Binding -/

theorem assign_of_defined (chk : ErrorChecks) (s : State) (this : Access) (expr : IndexExpr)
    (h : (this.getTensorVar.getIndexExpr s).defined = true) :
    this.assign chk s expr = ⟨some .AlreadyBound, s⟩ := by
  simp [Access.assign, h]

theorem accumulate_of_defined (chk : ErrorChecks) (s : State) (this : Access) (expr : IndexExpr)
    (h : (this.getTensorVar.getIndexExpr s).defined = true) :
    this.accumulate chk s expr = ⟨some .AlreadyBound, s⟩ := by
  simp [Access.accumulate, h]

theorem assign_of_undefined (chk : ErrorChecks) (s : State) (this : Access) (expr : IndexExpr)
    (h : (this.getTensorVar.getIndexExpr s).defined = false) :
    this.assign chk s expr =
      this.getTensorVar.setIndexExpression chk s this.getIndexVars expr false := by
  simp [Access.assign, h]

theorem accumulate_of_undefined (chk : ErrorChecks) (s : State) (this : Access)
    (expr : IndexExpr) (h : (this.getTensorVar.getIndexExpr s).defined = false) :
    this.accumulate chk s expr =
      this.getTensorVar.setIndexExpression chk s this.getIndexVars expr true := by
  simp [Access.accumulate, h]

theorem setIndexExpression_error_cases (chk : ErrorChecks) (s : State) (t : TensorVar)
    (freeVars : List IndexVar) (e : IndexExpr) (acc : Bool) :
    (t.setIndexExpression chk s freeVars e acc).error ≠ some .AlreadyBound := by
  unfold TensorVar.setIndexExpression
  dsimp only
  split_ifs <;> simp

/-- C1: when the tensor of the access already has a defined index expression,
both `operator=` and `operator+=` raise AlreadyBound ("Cannot reassign") for
every right-hand side and every list of index variables, and the heap (hence
the stored free variables, index expression and accumulate flag) is exactly as
before; on a tensor whose index expression is undefined neither operator
raises AlreadyBound, and a freshly constructed tensor variable has an undefined
index expression. -/
theorem assign_rebind_rejected (chk : ErrorChecks) (s : State) (this : Access)
    (expr : IndexExpr) :
    ((this.getTensorVar.getIndexExpr s).defined = true →
      (this.assign chk s expr).error = some .AlreadyBound ∧
      (this.assign chk s expr).state = s ∧
      (this.accumulate chk s expr).error = some .AlreadyBound ∧
      (this.accumulate chk s expr).state = s) ∧
    ((this.getTensorVar.getIndexExpr s).defined = false →
      (this.assign chk s expr).error ≠ some .AlreadyBound ∧
      (this.accumulate chk s expr).error ≠ some .AlreadyBound) ∧
    (∀ (name : String) (type : TensorType) (format : Format) (accumulate0 : Bool),
      ((TensorVar.new s name type format accumulate0).1.getIndexExpr
        (TensorVar.new s name type format accumulate0).2).defined = false) := by
  refine ⟨fun h => ?_, fun h => ?_, fun name type format accumulate0 => ?_⟩
  · rw [assign_of_defined chk s this expr h, accumulate_of_defined chk s this expr h]
    exact ⟨rfl, rfl, rfl, rfl⟩
  · rw [assign_of_undefined chk s this expr h, accumulate_of_undefined chk s this expr h]
    exact ⟨setIndexExpression_error_cases _ _ _ _ _ _, setIndexExpression_error_cases _ _ _ _ _ _⟩
  · simp [TensorVar.new, TensorVar.getIndexExpr, IndexExpr.defined]

/-- Witness for C1: in the matrix heap `A(i,j) = B(i,j)` succeeds; afterwards
`A(i,j) = C(i,j)` raises AlreadyBound and `A` is still bound to `B(i,j)`. -/
theorem assign_rebind_rejected_witness :
    (Sample.Aij.assign sampleChecks Sample.matrixHeap Sample.Bij.toIndexExpr).error = none ∧
    (Sample.Aij.assign sampleChecks Sample.boundMatrixHeap Sample.Cij.toIndexExpr).error
      = some .AlreadyBound ∧
    Sample.A.getIndexExpr
      (Sample.Aij.assign sampleChecks Sample.boundMatrixHeap Sample.Cij.toIndexExpr).state
      = Sample.Bij.toIndexExpr := by
  have h := (assign_rebind_rejected sampleChecks Sample.boundMatrixHeap Sample.Aij
    Sample.Cij.toIndexExpr).1 (by decide)
  refine ⟨by decide, h.1, ?_⟩
  rw [h.2.1]
  decide

/-- C2: when `setIndexExpression` raises (the dimension typecheck fails, or a
transposition or a distribution is detected), the heap is exactly as before the
call: free variables, index expression and accumulate flag of the tensor are
unchanged, an unbound tensor is still unbound, and a later call behaves as it
would have without the failed one. -/
theorem setIndexExpression_atomic (chk : ErrorChecks) (s : State) (t : TensorVar)
    (freeVars : List IndexVar) (e : IndexExpr) (acc : Bool)
    (h : (t.setIndexExpression chk s freeVars e acc).error = some .DimensionMismatch ∨
         (t.setIndexExpression chk s freeVars e acc).error = some .UnsupportedTransposition ∨
         (t.setIndexExpression chk s freeVars e acc).error = some .UnsupportedDistribution) :
    (t.setIndexExpression chk s freeVars e acc).state = s ∧
    t.getFreeVars (t.setIndexExpression chk s freeVars e acc).state = t.getFreeVars s ∧
    t.getIndexExpr (t.setIndexExpression chk s freeVars e acc).state = t.getIndexExpr s ∧
    t.isAccumulating (t.setIndexExpression chk s freeVars e acc).state = t.isAccumulating s ∧
    (∀ (freeVars2 : List IndexVar) (e2 : IndexExpr) (acc2 : Bool),
      t.setIndexExpression chk (t.setIndexExpression chk s freeVars e acc).state freeVars2 e2 acc2
        = t.setIndexExpression chk s freeVars2 e2 acc2) := by
  have hs : (t.setIndexExpression chk s freeVars e acc).state = s := by
    revert h
    unfold TensorVar.setIndexExpression
    dsimp only
    split_ifs <;> simp
  rw [hs]
  exact ⟨rfl, rfl, rfl, rfl, fun _ _ _ => rfl⟩

/-- Witness for C2: with `B` of size 3 and `C` of size 4, binding
`a(i) = B(i) + C(i)` raises DimensionMismatch and leaves the heap as it was. -/
theorem setIndexExpression_atomic_witness :
    (Sample.A.setIndexExpression sampleChecks (Sample.vectorHeap 4) [Sample.i] Sample.sum
        false).error = some .DimensionMismatch ∧
    (Sample.A.setIndexExpression sampleChecks (Sample.vectorHeap 4) [Sample.i] Sample.sum
        false).state = Sample.vectorHeap 4 :=
  ⟨by decide,
   (setIndexExpression_atomic sampleChecks (Sample.vectorHeap 4) Sample.A [Sample.i] Sample.sum
      false (Or.inl (by decide))).1⟩

theorem setIndexExpression_of_pass (chk : ErrorChecks) (s : State) (t : TensorVar)
    (freeVars : List IndexVar) (e : IndexExpr) (acc : Bool)
    (h1 : chk.dimensionsTypecheck s freeVars e (t.getType s).getShape = true)
    (h2 : chk.containsTranspose s (t.getFormat s) freeVars e = false)
    (h3 : chk.containsDistribution s freeVars e = false) :
    t.setIndexExpression chk s freeVars e acc =
      ⟨none, { s with tensorVars := Function.update s.tensorVars t.content
                        { (s.tensorVars t.content) with
                            freeVars := freeVars, indexExpr := e, accumulate := acc } }⟩ := by
  simp [TensorVar.setIndexExpression, h1, h2, h3]

/-- C3: for every tensor `T` whose index expression is undefined and every
list `vars` of index variables and right-hand side `e` that pass the three
checks, `T(vars) = e` succeeds and every handle equal to `T` then reports
`getFreeVars() = vars` (the list given, in the same order),
`getIndexExpr() = e` and `isAccumulating() = false`, with name, type and
format as before; `T(vars) += e` does the same with
`isAccumulating() = true`.  The access `T(vars)` is the node holding `T` and
`vars`, at any address. -/
theorem assign_stores_triple (chk : ErrorChecks) (s : State) (ptr : Nat) (T : TensorVar)
    (vars : List IndexVar) (e : IndexExpr)
    (hun : (T.getIndexExpr s).defined = false)
    (h1 : chk.dimensionsTypecheck s vars e (T.getType s).getShape = true)
    (h2 : chk.containsTranspose s (T.getFormat s) vars e = false)
    (h3 : chk.containsDistribution s vars e = false) :
    (Access.assign chk s ⟨ptr, T, vars⟩ e).error = none ∧
    (Access.accumulate chk s ⟨ptr, T, vars⟩ e).error = none ∧
    ∀ t : TensorVar, t.eq T = true →
      (t.getFreeVars (Access.assign chk s ⟨ptr, T, vars⟩ e).state = vars ∧
       t.getIndexExpr (Access.assign chk s ⟨ptr, T, vars⟩ e).state = e ∧
       t.isAccumulating (Access.assign chk s ⟨ptr, T, vars⟩ e).state = false ∧
       t.getName (Access.assign chk s ⟨ptr, T, vars⟩ e).state = t.getName s ∧
       t.getType (Access.assign chk s ⟨ptr, T, vars⟩ e).state = t.getType s ∧
       t.getFormat (Access.assign chk s ⟨ptr, T, vars⟩ e).state = t.getFormat s) ∧
      (t.getFreeVars (Access.accumulate chk s ⟨ptr, T, vars⟩ e).state = vars ∧
       t.getIndexExpr (Access.accumulate chk s ⟨ptr, T, vars⟩ e).state = e ∧
       t.isAccumulating (Access.accumulate chk s ⟨ptr, T, vars⟩ e).state = true ∧
       t.getName (Access.accumulate chk s ⟨ptr, T, vars⟩ e).state = t.getName s ∧
       t.getType (Access.accumulate chk s ⟨ptr, T, vars⟩ e).state = t.getType s ∧
       t.getFormat (Access.accumulate chk s ⟨ptr, T, vars⟩ e).state = t.getFormat s) := by
  have ha : Access.assign chk s ⟨ptr, T, vars⟩ e = T.setIndexExpression chk s vars e false :=
    assign_of_undefined chk s ⟨ptr, T, vars⟩ e hun
  have hb : Access.accumulate chk s ⟨ptr, T, vars⟩ e =
      T.setIndexExpression chk s vars e true :=
    accumulate_of_undefined chk s ⟨ptr, T, vars⟩ e hun
  rw [ha, hb, setIndexExpression_of_pass chk s T vars e false h1 h2 h3,
    setIndexExpression_of_pass chk s T vars e true h1 h2 h3]
  refine ⟨rfl, rfl, fun t ht => ?_⟩
  have hc : t.content = T.content := by
    simpa [TensorVar.eq] using ht
  simp only [TensorVar.getFreeVars, TensorVar.getIndexExpr, TensorVar.isAccumulating,
    TensorVar.getName, TensorVar.getType, TensorVar.getFormat]
  rw [hc]
  simp

/-- Witness for C3: in the matrix heap, after `A(i,j) = B(i,j)` the tensor `A`
reports the free variables `[i, j]`, the expression `B(i,j)` and no
accumulation; after `A(i,j) += B(i,j)` it reports `[i, j]` and accumulation. -/
theorem assign_stores_triple_witness :
    (Sample.Aij.assign sampleChecks Sample.matrixHeap Sample.Bij.toIndexExpr).error = none ∧
    Sample.A.getFreeVars
      (Sample.Aij.assign sampleChecks Sample.matrixHeap Sample.Bij.toIndexExpr).state
      = [Sample.i, Sample.j] ∧
    Sample.A.getIndexExpr
      (Sample.Aij.assign sampleChecks Sample.matrixHeap Sample.Bij.toIndexExpr).state
      = Sample.Bij.toIndexExpr ∧
    Sample.A.isAccumulating
      (Sample.Aij.assign sampleChecks Sample.matrixHeap Sample.Bij.toIndexExpr).state
      = false ∧
    Sample.A.getFreeVars
      (Sample.Aij.accumulate sampleChecks Sample.matrixHeap Sample.Bij.toIndexExpr).state
      = [Sample.i, Sample.j] ∧
    Sample.A.isAccumulating
      (Sample.Aij.accumulate sampleChecks Sample.matrixHeap Sample.Bij.toIndexExpr).state
      = true := by
  have h := assign_stores_triple sampleChecks Sample.matrixHeap 10 Sample.A
    [Sample.i, Sample.j] Sample.Bij.toIndexExpr (by decide) (by decide) (by decide) (by decide)
  exact ⟨h.1, (h.2.2 Sample.A (by decide)).1.1, (h.2.2 Sample.A (by decide)).1.2.1,
    (h.2.2 Sample.A (by decide)).1.2.2.1, (h.2.2 Sample.A (by decide)).2.1,
    (h.2.2 Sample.A (by decide)).2.2.2.1⟩

/-- C8: the three checks of `setIndexExpression` run in a fixed order and the
first failure is the one raised: DimensionMismatch exactly when the dimension
typecheck fails (whatever the two detectors say), UnsupportedTransposition
exactly when the dimensions typecheck and a transposition is detected
(whatever the distribution detector says), UnsupportedDistribution exactly
when the first two checks pass and a distribution is detected, and success
exactly when all three pass. -/
theorem setIndexExpression_check_order (chk : ErrorChecks) (s : State) (t : TensorVar)
    (freeVars : List IndexVar) (e : IndexExpr) (acc : Bool) :
    ((t.setIndexExpression chk s freeVars e acc).error = some .DimensionMismatch ↔
      chk.dimensionsTypecheck s freeVars e (t.getType s).getShape = false) ∧
    ((t.setIndexExpression chk s freeVars e acc).error = some .UnsupportedTransposition ↔
      chk.dimensionsTypecheck s freeVars e (t.getType s).getShape = true ∧
      chk.containsTranspose s (t.getFormat s) freeVars e = true) ∧
    ((t.setIndexExpression chk s freeVars e acc).error = some .UnsupportedDistribution ↔
      chk.dimensionsTypecheck s freeVars e (t.getType s).getShape = true ∧
      chk.containsTranspose s (t.getFormat s) freeVars e = false ∧
      chk.containsDistribution s freeVars e = true) ∧
    ((t.setIndexExpression chk s freeVars e acc).error = none ↔
      chk.dimensionsTypecheck s freeVars e (t.getType s).getShape = true ∧
      chk.containsTranspose s (t.getFormat s) freeVars e = false ∧
      chk.containsDistribution s freeVars e = false) := by
  unfold TensorVar.setIndexExpression
  dsimp only
  cases chk.dimensionsTypecheck s freeVars e (t.getType s).getShape <;>
    cases chk.containsTranspose s (t.getFormat s) freeVars e <;>
    cases chk.containsDistribution s freeVars e <;> simp

/-- Witness for C8: with `B` of size 3 and `C` of size 4, `a(i) = B(i) + C(i)`
raises DimensionMismatch. -/
theorem setIndexExpression_check_order_witness :
    dimensionsTypecheck (Sample.vectorHeap 4) [Sample.i] Sample.sum
      (Sample.A.getType (Sample.vectorHeap 4)).getShape = false ∧
    (Sample.ai.assign sampleChecks (Sample.vectorHeap 4) Sample.sum).error
      = some .DimensionMismatch := by
  refine ⟨by decide, ?_⟩
  rw [assign_of_undefined _ _ _ _ (by decide)]
  exact (setIndexExpression_check_order sampleChecks (Sample.vectorHeap 4) Sample.A
    [Sample.i] Sample.sum false).1.2 (by decide)

/-! ## Operator splits -/

theorem splitOperatorTimes_of_ptr (e : IndexExpr) (p : Nat) (hp : e.ptr = some p)
    (old left right : IndexVar) (n : Nat) (s : State) :
    ∃ s1, e.splitOperatorTimes old left right n s = some s1 ∧
      s1.operatorSplits p = s.operatorSplits p ++ List.replicate n ⟨p, old, left, right⟩ ∧
      (∀ q, q ≠ p → s1.operatorSplits q = s.operatorSplits q) ∧
      s1.tensorVars = s.tensorVars ∧ s1.indexVars = s.indexVars := by
  induction n generalizing s with
  | zero => exact ⟨s, rfl, by simp, fun _ _ => rfl, rfl, rfl⟩
  | succ n ih =>
    obtain ⟨s1, h1, h2, h3, h4, h5⟩ := ih (ExprNode.splitOperator s p old left right)
    refine ⟨s1, ?_, ?_, ?_, ?_, ?_⟩
    · simp [IndexExpr.splitOperatorTimes, IndexExpr.splitOperator, hp, h1]
    · rw [h2]
      simp [ExprNode.splitOperator, List.replicate_succ]
    · intro q hq
      rw [h3 q hq]
      simp [ExprNode.splitOperator, Function.update, hq]
    · rw [h4]; rfl
    · rw [h5]; rfl

/-- C9: `splitOperator(old, left, right)` on a defined expression whose root
node is at address `p` keeps the operator splits already recorded on the root,
in order, and appends exactly one `OperatorSplit(p, old, left, right)`; `n`
calls with the same triple append `n` entries; the operator splits of every
node at another address are unchanged, in particular those of the descendants
of the expression (no descendant of a node is the node itself); the contents
of all tensor variables, hence every bound expression tree, are unchanged. -/
theorem splitOperator_appends_at_root (s : State) (e : IndexExpr) (p : Nat)
    (hp : e.ptr = some p) (old left right : IndexVar) :
    (∃ s1, e.splitOperator s old left right = some s1 ∧
      ExprNode.getOperatorSplits s1 p
        = ExprNode.getOperatorSplits s p ++ [⟨p, old, left, right⟩] ∧
      (∀ q, q ≠ p → ExprNode.getOperatorSplits s1 q = ExprNode.getOperatorSplits s q) ∧
      ((∀ d ∈ e.descendants, d.ptr ≠ some p) →
        ∀ d ∈ e.descendants, ∀ q, d.ptr = some q →
          ExprNode.getOperatorSplits s1 q = ExprNode.getOperatorSplits s q) ∧
      s1.tensorVars = s.tensorVars ∧ s1.indexVars = s.indexVars) ∧
    (∀ n : Nat, ∃ sn, e.splitOperatorTimes old left right n s = some sn ∧
      ExprNode.getOperatorSplits sn p
        = ExprNode.getOperatorSplits s p ++ List.replicate n ⟨p, old, left, right⟩ ∧
      (∀ q, q ≠ p → ExprNode.getOperatorSplits sn q = ExprNode.getOperatorSplits s q) ∧
      sn.tensorVars = s.tensorVars) := by
  constructor
  · refine ⟨ExprNode.splitOperator s p old left right, ?_, ?_, ?_, ?_, rfl, rfl⟩
    · simp [IndexExpr.splitOperator, hp]
    · simp [ExprNode.splitOperator, ExprNode.getOperatorSplits]
    · intro q hq
      simp [ExprNode.splitOperator, ExprNode.getOperatorSplits, Function.update, hq]
    · intro hd d hmem q hq
      have hne : q ≠ p := by
        intro h
        exact hd d hmem (by rw [hq, h])
      simp [ExprNode.splitOperator, ExprNode.getOperatorSplits, Function.update, hne]
  · intro n
    obtain ⟨sn, h1, h2, h3, h4, _⟩ := splitOperatorTimes_of_ptr e p hp old left right n s
    exact ⟨sn, h1, h2, h3, h4⟩

/-- Witness for C9: splitting `B(i) + C(i)` (root at address 23) twice with
the same triple records two equal entries on the root and none on the
operands. -/
theorem splitOperator_appends_at_root_witness :
    Sample.sum.ptr = some 23 ∧
    ∃ sn, Sample.sum.splitOperatorTimes Sample.i Sample.i1 Sample.i2 2 (Sample.vectorHeap 3)
        = some sn ∧
      ExprNode.getOperatorSplits sn 23
        = [⟨23, Sample.i, Sample.i1, Sample.i2⟩, ⟨23, Sample.i, Sample.i1, Sample.i2⟩] ∧
      ExprNode.getOperatorSplits sn 21 = [] := by
  refine ⟨rfl, ?_⟩
  obtain ⟨sn, h1, h2, h3, _⟩ := (splitOperator_appends_at_root (Sample.vectorHeap 3)
    Sample.sum 23 rfl Sample.i Sample.i1 Sample.i2).2 2
  refine ⟨sn, h1, ?_, ?_⟩
  · rw [h2]; rfl
  · rw [h3 21 (by decide)]; rfl

/-! ## Schedules -/

theorem foldl_addOperatorSplit (l : List OperatorSplit) (sch : Schedule) :
    l.foldl Schedule.addOperatorSplit sch = ⟨sch.operatorSplits ++ l⟩ := by
  induction l generalizing sch with
  | nil => simp
  | cons x xs ih => simp [List.foldl_cons, ih, Schedule.addOperatorSplit]

theorem GetSchedule.accept_eq (s : State) (e : IndexExpr) (sch : Schedule)
    (hdef : e.operandsDefined = true) (hnest : e.noNestedSplits s = true) :
    GetSchedule.accept s e sch = some ⟨sch.operatorSplits ++ e.binarySplits s⟩ := by
  induction e with
  | undefined => simp [IndexExpr.operandsDefined] at hdef
  | access p t vars => simp [GetSchedule.accept, IndexExpr.binarySplits]
  | intImm p v => simp [GetSchedule.accept, IndexExpr.binarySplits]
  | floatImm p v => simp [GetSchedule.accept, IndexExpr.binarySplits]
  | doubleImm p v => simp [GetSchedule.accept, IndexExpr.binarySplits]
  | neg p a ih =>
    simp only [IndexExpr.operandsDefined] at hdef
    simp only [IndexExpr.noNestedSplits] at hnest
    simp [GetSchedule.accept, IndexExpr.binarySplits, ih hdef hnest]
  | add p a b _ _ =>
    simp only [IndexExpr.noNestedSplits, Bool.and_eq_true, List.isEmpty_iff] at hnest
    simp [GetSchedule.accept, IndexExpr.binarySplits, foldl_addOperatorSplit,
      ExprNode.getOperatorSplits, hnest.1, hnest.2]
  | sub p a b _ _ =>
    simp only [IndexExpr.noNestedSplits, Bool.and_eq_true, List.isEmpty_iff] at hnest
    simp [GetSchedule.accept, IndexExpr.binarySplits, foldl_addOperatorSplit,
      ExprNode.getOperatorSplits, hnest.1, hnest.2]
  | mul p a b _ _ =>
    simp only [IndexExpr.noNestedSplits, Bool.and_eq_true, List.isEmpty_iff] at hnest
    simp [GetSchedule.accept, IndexExpr.binarySplits, foldl_addOperatorSplit,
      ExprNode.getOperatorSplits, hnest.1, hnest.2]
  | div p a b _ _ =>
    simp only [IndexExpr.noNestedSplits, Bool.and_eq_true, List.isEmpty_iff] at hnest
    simp [GetSchedule.accept, IndexExpr.binarySplits, foldl_addOperatorSplit,
      ExprNode.getOperatorSplits, hnest.1, hnest.2]

/-- C4, as it holds on the code: for a tensor bound to an expression all of
whose operands are defined, and in which no operator split is recorded on a
binary node below another binary node, `getSchedule()` returns, in pre-order
and with duplicates, exactly the operator splits recorded on the `Add`, `Sub`,
`Mul` and `Div` nodes of the index expression; operator splits recorded on
accesses, immediates and `Neg` nodes are not part of the schedule.  The
schedule member of the tensor holds the same list afterwards, and the index
expression and the recorded operator splits are unchanged. -/
theorem getSchedule_collects_binary_splits (s : State) (t : TensorVar)
    (hdef : (t.getIndexExpr s).operandsDefined = true)
    (hnest : (t.getIndexExpr s).noNestedSplits s = true) :
    ∃ s1, t.getSchedule s = some (⟨(t.getIndexExpr s).binarySplits s⟩, s1) ∧
      (s1.tensorVars t.content).schedule = ⟨(t.getIndexExpr s).binarySplits s⟩ ∧
      t.getIndexExpr s1 = t.getIndexExpr s ∧
      s1.operatorSplits = s.operatorSplits := by
  refine ⟨{ s with tensorVars := Function.update s.tensorVars t.content
                       { (s.tensorVars t.content) with
                           schedule := ⟨(t.getIndexExpr s).binarySplits s⟩ } }, ?_, ?_, ?_, ?_⟩
  · simp only [TensorVar.getSchedule]
    rw [GetSchedule.accept_eq s _ _ hdef hnest]
    simp only [Schedule.clearOperatorSplits, List.nil_append]
  · simp
  · simp [TensorVar.getIndexExpr]
  · rfl

/-- Witness for C4: `splitOperator(i, i1, i2)` is called once on the `Add`
node of `B(i) + C(i)`, then `a(i) = B(i) + C(i)` is bound; the schedule holds
that one split. -/
theorem getSchedule_collects_binary_splits_witness :
    (Sample.A.getIndexExpr (Sample.splitThenBind 23 Sample.sum)).binarySplits
        (Sample.splitThenBind 23 Sample.sum)
      = [⟨23, Sample.i, Sample.i1, Sample.i2⟩] ∧
    ∃ s1, Sample.A.getSchedule (Sample.splitThenBind 23 Sample.sum)
      = some (⟨(Sample.A.getIndexExpr (Sample.splitThenBind 23 Sample.sum)).binarySplits
          (Sample.splitThenBind 23 Sample.sum)⟩, s1) := by
  refine ⟨by decide, ?_⟩
  obtain ⟨s1, h, _⟩ := getSchedule_collects_binary_splits (Sample.splitThenBind 23 Sample.sum)
    Sample.A (by decide) (by decide)
  exact ⟨s1, h⟩

/-- Counterexample to C4 as stated.  First: one split is recorded on the access
node `B(i)` and `a(i) = B(i)` is bound; the schedule is empty although one
split is recorded on a node of the index expression.  Second: one split is
recorded on the `Add` node of `(B(i) + C(i)) * B(i)` and that expression is
bound to `a(i)`; the schedule is empty as well. -/
theorem getSchedule_misses_recorded_splits :
    ((Sample.A.getSchedule (Sample.splitThenBind 21 Sample.Bi.toIndexExpr)).map
        (fun r => r.1.operatorSplits) = some [] ∧
      (Sample.A.getIndexExpr (Sample.splitThenBind 21 Sample.Bi.toIndexExpr)).recordedSplits
        (Sample.splitThenBind 21 Sample.Bi.toIndexExpr)
        = [⟨21, Sample.i, Sample.i1, Sample.i2⟩]) ∧
    ((Sample.A.getSchedule (Sample.splitThenBind 23 Sample.product)).map
        (fun r => r.1.operatorSplits) = some [] ∧
      (Sample.A.getIndexExpr (Sample.splitThenBind 23 Sample.product)).recordedSplits
        (Sample.splitThenBind 23 Sample.product)
        = [⟨23, Sample.i, Sample.i1, Sample.i2⟩]) := by
  decide

/-! ## The packer on the tensors of the storage test -/

theorem pack_vector_tests :
    pack [1] (Sample.format ['d']) Sample.d1a = ⟨[[]], [1], 1⟩ ∧
    pack [1] (Sample.format ['s']) Sample.d1a = ⟨[[[0, 1], [0]]], [1], 1⟩ ∧
    pack [5] (Sample.format ['d']) Sample.d5a = ⟨[[]], [0, 1, 0, 0, 2], 5⟩ ∧
    pack [5] (Sample.format ['s']) Sample.d5a = ⟨[[[0, 2], [1, 4]]], [1, 2], 2⟩ := by
  decide

theorem pack_matrix_tests :
    pack [3, 3] (Sample.format ['d', 'd']) Sample.d33a
      = ⟨[[], []], [0, 1, 0, 0, 0, 0, 2, 0, 3], 9⟩ ∧
    pack [3, 3] (Sample.format ['s', 'd']) Sample.d33a
      = ⟨[[[0, 2], [0, 2]], []], [0, 1, 0, 2, 0, 3], 6⟩ ∧
    pack [3, 3] (Sample.format ['d', 's']) Sample.d33a
      = ⟨[[], [[0, 1, 1, 3], [1, 0, 2]]], [1, 2, 3], 3⟩ ∧
    pack [3, 3] (Sample.format ['s', 's']) Sample.d33a
      = ⟨[[[0, 2], [0, 2]], [[0, 1, 3], [1, 0, 2]]], [1, 2, 3], 3⟩ := by
  decide

theorem pack_tensor3_dense_last_tests :
    pack [2, 3, 3] (Sample.format ['d', 'd', 'd']) Sample.d233a
      = ⟨[[], [], []], [1, 2, 0, 0, 0, 0, 0, 0, 3, 0, 4, 0, 0, 0, 0, 5, 0, 6], 18⟩ ∧
    pack [2, 3, 3] (Sample.format ['s', 'd', 'd']) Sample.d233a
      = ⟨[[[0, 2], [0, 1]], [], []],
          [1, 2, 0, 0, 0, 0, 0, 0, 3, 0, 4, 0, 0, 0, 0, 5, 0, 6], 18⟩ ∧
    pack [2, 3, 3] (Sample.format ['d', 's', 'd']) Sample.d233a
      = ⟨[[], [[0, 2, 4], [0, 2, 0, 2]], []], [1, 2, 0, 0, 0, 3, 0, 4, 0, 5, 0, 6], 12⟩ ∧
    pack [2, 3, 3] (Sample.format ['s', 's', 'd']) Sample.d233a
      = ⟨[[[0, 2], [0, 1]], [[0, 2, 4], [0, 2, 0, 2]], []],
          [1, 2, 0, 0, 0, 3, 0, 4, 0, 5, 0, 6], 12⟩ := by
  decide

theorem pack_tensor3_sparse_last_tests :
    pack [2, 3, 3] (Sample.format ['d', 'd', 's']) Sample.d233a
      = ⟨[[], [], [[0, 2, 2, 3, 4, 4, 6], [0, 1, 2, 1, 0, 2]]], [1, 2, 3, 4, 5, 6], 6⟩ ∧
    pack [2, 3, 3] (Sample.format ['s', 'd', 's']) Sample.d233a
      = ⟨[[[0, 2], [0, 1]], [], [[0, 2, 2, 3, 4, 4, 6], [0, 1, 2, 1, 0, 2]]],
          [1, 2, 3, 4, 5, 6], 6⟩ ∧
    pack [2, 3, 3] (Sample.format ['d', 's', 's']) Sample.d233a
      = ⟨[[], [[0, 2, 4], [0, 2, 0, 2]], [[0, 2, 3, 4, 6], [0, 1, 2, 1, 0, 2]]],
          [1, 2, 3, 4, 5, 6], 6⟩ ∧
    pack [2, 3, 3] (Sample.format ['s', 's', 's']) Sample.d233a
      = ⟨[[[0, 2], [0, 1]], [[0, 2, 4], [0, 2, 0, 2]], [[0, 2, 3, 4, 6], [0, 1, 2, 1, 0, 2]]],
          [1, 2, 3, 4, 5, 6], 6⟩ := by
  decide

/-! ## Segment arrays -/

theorem cumulative_head (start : Nat) (counts : List Nat) :
    (cumulative start counts).head? = some start := by
  cases counts <;> rfl

theorem cumulative_length (start : Nat) (counts : List Nat) :
    (cumulative start counts).length = counts.length + 1 := by
  induction counts generalizing start with
  | nil => rfl
  | cons c cs ih => simp [cumulative, ih]

theorem cumulative_ge (start : Nat) (counts : List Nat) :
    ∀ x ∈ cumulative start counts, start ≤ x := by
  induction counts generalizing start with
  | nil => simp [cumulative]
  | cons c cs ih =>
    intro x hx
    simp only [cumulative, List.mem_cons] at hx
    rcases hx with rfl | hx
    · exact le_rfl
    · exact le_trans (Nat.le_add_right _ _) (ih _ x hx)

theorem cumulative_sorted (start : Nat) (counts : List Nat) :
    (cumulative start counts).Sorted (fun a b => a ≤ b) := by
  induction counts generalizing start with
  | nil => simp [cumulative]
  | cons c cs ih =>
    simp only [cumulative, List.sorted_cons]
    exact ⟨fun x hx => le_trans (Nat.le_add_right _ _) (cumulative_ge _ _ x hx), ih _⟩

theorem cumulative_getLast (start : Nat) (counts : List Nat) :
    (cumulative start counts).getLast? = some (start + counts.sum) := by
  induction counts generalizing start with
  | nil => simp [cumulative]
  | cons c cs ih =>
    have h := ih (start + c)
    simp only [cumulative, List.sum_cons]
    cases hc : cumulative (start + c) cs with
    | nil => rw [hc] at h; simp at h
    | cons y ys => rw [List.getLast?_cons_cons, ← hc, h, Nat.add_assoc]

theorem length_flatMap_eq_sum {β γ : Type} (l : List β) (f : β → List γ) :
    (l.flatMap f).length = (l.map (fun x => (f x).length)).sum := by
  induction l with
  | nil => rfl
  | cons x xs ih => simp [ih]

theorem length_denseChildren {α : Type} (size : Nat) (groups : List (List (CoordinateEntry α))) :
    (denseChildren size groups).length = groups.length * size := by
  induction groups with
  | nil => simp [denseChildren]
  | cons g gs ih =>
    simp only [denseChildren, List.flatMap_cons, List.length_append, List.length_map,
      List.length_range, List.length_cons] at ih ⊢
    rw [ih, Nat.succ_mul, Nat.add_comm]

theorem length_sparseChildren {α : Type} (groups : List (List (CoordinateEntry α))) :
    (sparseChildren groups).length = (sparseIndices groups).length := by
  rw [sparseChildren, sparseIndices, length_flatMap_eq_sum, length_flatMap_eq_sum]
  congr 1
  exact List.map_congr_left (fun g _ => by simp)

theorem sparseSegments_getLast {α : Type} (groups : List (List (CoordinateEntry α))) :
    (sparseSegments groups).getLast? = some (sparseIndices groups).length := by
  rw [sparseSegments, cumulative_getLast, sparseIndices, length_flatMap_eq_sum, Nat.zero_add]

theorem segmentsWellFormed_packLevels {α : Type} [Zero α] [Add α]
    (levels : List (LevelType × Nat)) (dense : Bool) (groups : List (List (CoordinateEntry α))) :
    segmentsWellFormed levels groups.length (packLevels levels dense groups).1 := by
  induction levels generalizing dense groups with
  | nil => simp [segmentsWellFormed, packLevels]
  | cons level levels ih =>
    obtain ⟨type, size⟩ := level
    cases type with
    | Dense =>
      refine ⟨_, rfl, ?_⟩
      rw [← length_denseChildren]
      exact ih true _
    | Sparse =>
      refine ⟨_, _, _, rfl, cumulative_head _ _, cumulative_sorted _ _, ?_,
        sparseSegments_getLast groups, ?_⟩
      · simp [sparseSegments, cumulative_length]
      · rw [← length_sparseChildren]
        exact ih false _

/-- C6: for every list of dimension sizes, every format and every list of
entries, the packed index arrays are well formed level by level: a dense level
stores no arrays; the segments of a sparse level start with 0, do not
decrease, have one entry more than there are parent groups at that level, and
their last entry is the number of indices stored at the level.  The parent
groups are counted as the spec does: 1 at level 0, the previous count times
the size after a dense level, the number of stored indices after a sparse
level. -/
theorem pack_segments_well_formed {α : Type} [Zero α] [Add α] (dimensions : List Nat)
    (format : Format) (entries : List (CoordinateEntry α)) :
    segmentsWellFormed (storageLevels dimensions format) 1
      (pack dimensions format entries).indices :=
  segmentsWellFormed_packLevels (storageLevels dimensions format) true
    [storageEntries format entries]

/-- Witness for C6: the 2x3x3 tensor of the test in format `dds` has the
level 2 segments `{0, 2, 2, 3, 4, 4, 6}`, one more than its 6 parent groups,
and 6 indices. -/
theorem pack_segments_well_formed_witness :
    (pack [2, 3, 3] (Sample.format ['d', 'd', 's']) Sample.d233a).indices
      = [[], [], [[0, 2, 2, 3, 4, 4, 6], [0, 1, 2, 1, 0, 2]]] ∧
    segmentsWellFormed (storageLevels [2, 3, 3] (Sample.format ['d', 'd', 's'])) 1
      (pack [2, 3, 3] (Sample.format ['d', 'd', 's']) Sample.d233a).indices :=
  ⟨by decide, pack_segments_well_formed [2, 3, 3] (Sample.format ['d', 'd', 's']) Sample.d233a⟩

/-! ## Dense packing -/

theorem permute_range (l : List Nat) : permute (List.range l.length) l = l := by
  apply List.ext_getElem?
  intro i
  simp only [permute, List.getElem?_map]
  by_cases h : i < l.length
  · simp [List.getElem?_range h, List.getD_eq_getElem?_getD, List.getElem?_eq_getElem h]
  · have h1 : l.length ≤ i := Nat.le_of_not_lt h
    simp [List.getElem?_eq_none h1, h1]

theorem length_of_inBounds : ∀ (ns cs : List Nat), inBounds ns cs = true → cs.length = ns.length
  | [], [], _ => rfl
  | [], _ :: _, h => by simp [inBounds] at h
  | _ :: _, [], h => by simp [inBounds] at h
  | n :: ns, c :: cs, h => by
    simp only [inBounds, Bool.and_eq_true] at h
    simp [length_of_inBounds ns cs h.2]

theorem linearise_lt : ∀ (ns cs : List Nat), inBounds ns cs = true → linearise ns cs < ns.prod
  | [], [], _ => by simp [linearise]
  | [], _ :: _, h => by simp [inBounds] at h
  | _ :: _, [], h => by simp [inBounds] at h
  | n :: ns, c :: cs, h => by
    simp only [inBounds, Bool.and_eq_true, decide_eq_true_eq] at h
    have ih := linearise_lt ns cs h.2
    simp only [linearise, List.prod_cons]
    calc c * ns.prod + linearise ns cs < c * ns.prod + ns.prod := by omega
      _ = (c + 1) * ns.prod := by ring
      _ ≤ n * ns.prod := Nat.mul_le_mul_right _ h.1

theorem mul_add_inj (m c c' q q' : Nat) (hq : q < m) (hq' : q' < m)
    (h : c * m + q = c' * m + q') : c = c' ∧ q = q' := by
  have hc : c = c' := by
    rcases Nat.lt_trichotomy c c' with hlt | heq | hgt
    · exfalso
      have h1 : (c + 1) * m ≤ c' * m := Nat.mul_le_mul_right _ hlt
      have h2 : (c + 1) * m = c * m + m := by ring
      omega
    · exact heq
    · exfalso
      have h1 : (c' + 1) * m ≤ c * m := Nat.mul_le_mul_right _ hgt
      have h2 : (c' + 1) * m = c' * m + m := by ring
      omega
  subst hc
  exact ⟨rfl, by omega⟩

theorem linearise_injective : ∀ (ns cs cs' : List Nat), inBounds ns cs = true →
    inBounds ns cs' = true → linearise ns cs = linearise ns cs' → cs = cs'
  | [], [], [], _, _, _ => rfl
  | [], _ :: _, _, h, _, _ => by simp [inBounds] at h
  | [], [], _ :: _, _, h, _ => by simp [inBounds] at h
  | _ :: _, [], _, h, _, _ => by simp [inBounds] at h
  | _ :: _, _ :: _, [], _, h, _ => by simp [inBounds] at h
  | n :: ns, c :: cs, c' :: cs', h, h', heq => by
    simp only [inBounds, Bool.and_eq_true, decide_eq_true_eq] at h h'
    simp only [linearise] at heq
    obtain ⟨h1, h2⟩ := mul_add_inj ns.prod c c' _ _ (linearise_lt ns cs h.2)
      (linearise_lt ns cs' h'.2) heq
    rw [h1, linearise_injective ns cs cs' h.2 h'.2 h2]

theorem lexLE_refl : ∀ cs : List Nat, lexLE cs cs = true
  | [] => rfl
  | c :: cs => by simp [lexLE, lexLE_refl cs]

theorem filter_orderedInsert {β : Type} (r : β → β → Prop) [DecidableRel r] (P : β → Bool)
    (a : β) (s : List β) (h : P a = true → ∀ b ∈ s, P b = true → r a b) :
    (s.orderedInsert r a).filter P = (a :: s).filter P := by
  induction s with
  | nil => simp
  | cons b s ih =>
    have ih1 := ih (fun ha c hc hPc => h ha c (List.mem_cons_of_mem _ hc) hPc)
    simp only [List.orderedInsert]
    split_ifs with hr
    · rfl
    · by_cases hPa : P a = true
      · have hPb : P b = false := by
          cases hb : P b with
          | false => rfl
          | true => exact absurd (h hPa b (List.mem_cons_self _ _) hb) hr
        simp only [List.filter_cons, hPa, hPb, if_true] at ih1 ⊢
        simpa using ih1
      · simp only [List.filter_cons, hPa] at ih1 ⊢
        simp only [ih1]
        rfl

theorem filter_insertionSort {β : Type} (r : β → β → Prop) [DecidableRel r] (P : β → Bool)
    (l : List β) (h : ∀ a ∈ l, ∀ b ∈ l, P a = true → P b = true → r a b) :
    (l.insertionSort r).filter P = l.filter P := by
  induction l with
  | nil => rfl
  | cons a l ih =>
    have ih1 := ih (fun x hx y hy => h x (List.mem_cons_of_mem _ hx) y (List.mem_cons_of_mem _ hy))
    rw [List.insertionSort, filter_orderedInsert]
    · simp only [List.filter_cons, ih1]
    · intro ha b hb hPb
      exact h a (List.mem_cons_self _ _) b
        (List.mem_cons_of_mem _ ((List.perm_insertionSort r l).subset hb)) ha hPb

theorem range_flatMap_map {β : Type} (n m : Nat) (F : Nat → β) :
    (List.range n).flatMap (fun j => (List.range m).map (fun q => F (j * m + q)))
      = (List.range (n * m)).map F := by
  induction n with
  | zero => simp
  | succ n ih =>
    rw [List.range_succ, List.flatMap_append, ih, Nat.succ_mul, List.range_add,
      List.map_append]
    simp

theorem filter_child {α : Type} (n : Nat) (ns : List Nat) (j q : Nat)
    (g : List (CoordinateEntry α)) (hg : ∀ e ∈ g, inBounds (n :: ns) e.coords = true)
    (hq : q < ns.prod) :
    ((child j g).filter (fun e => linearise ns e.coords = q)).map (fun e => e.value)
      = (g.filter (fun e => linearise (n :: ns) e.coords = j * ns.prod + q)).map
          (fun e => e.value) := by
  induction g with
  | nil => rfl
  | cons e g ih =>
    have ih1 := ih (fun x hx => hg x (List.mem_cons_of_mem _ hx))
    have he := hg e (List.mem_cons_self _ _)
    obtain ⟨coords, v⟩ := e
    cases coords with
    | nil => simp [inBounds] at he
    | cons c cs =>
      simp only [inBounds, Bool.and_eq_true, decide_eq_true_eq] at he
      have hlt := linearise_lt ns cs he.2
      simp only [child, List.filterMap_cons] at ih1 ⊢
      by_cases hcj : c = j
      · subst hcj
        by_cases hl : linearise ns cs = q
        · simp [List.filter_cons, linearise, hl, ih1]
        · have hne : ¬ (c * ns.prod + linearise ns cs = c * ns.prod + q) := by omega
          simp [List.filter_cons, linearise, hl, hne, ih1]
      · have hne : ¬ (c * ns.prod + linearise ns cs = j * ns.prod + q) := by
          intro h
          exact hcj (mul_add_inj ns.prod c j _ _ hlt hq h).1
        simp [List.filter_cons, linearise, hcj, hne, ih1]

theorem inBounds_of_mem_child {α : Type} (n : Nat) (ns : List Nat) (j : Nat)
    (g : List (CoordinateEntry α)) (hg : ∀ e ∈ g, inBounds (n :: ns) e.coords = true) :
    ∀ e ∈ child j g, inBounds ns e.coords = true := by
  intro e he
  simp only [child, List.mem_filterMap] at he
  obtain ⟨x, hx, hxe⟩ := he
  have hb := hg x hx
  obtain ⟨coords, v⟩ := x
  cases coords with
  | nil => simp at hxe
  | cons c cs =>
    simp only [inBounds, Bool.and_eq_true] at hb
    by_cases hcj : c = j
    · simp only [hcj, if_true, Option.some.injEq] at hxe
      rw [← hxe]
      exact hb.2
    · simp [hcj] at hxe

theorem denseImage_child {α : Type} [Zero α] [Add α] (n : Nat) (ns : List Nat)
    (g : List (CoordinateEntry α)) (hg : ∀ e ∈ g, inBounds (n :: ns) e.coords = true) :
    (List.range n).flatMap (fun j => denseImage ns (child j g)) = denseImage (n :: ns) g := by
  simp only [denseImage, List.prod_cons]
  rw [← range_flatMap_map n ns.prod (fun p =>
    sumValues ((g.filter (fun e => linearise (n :: ns) e.coords = p)).map (fun e => e.value)))]
  apply List.flatMap_congr
  intro j _
  apply List.map_congr_left
  intro q hq
  rw [filter_child n ns j q g hg (List.mem_range.mp hq)]

theorem packLevels_dense {α : Type} [Zero α] [Add α] (ns : List Nat)
    (groups : List (List (CoordinateEntry α)))
    (hg : ∀ g ∈ groups, ∀ e ∈ g, inBounds ns e.coords = true) :
    packLevels (ns.map (fun n => (LevelType.Dense, n))) true groups
      = (List.replicate ns.length [], groups.flatMap (fun g => denseImage ns g)) := by
  induction ns generalizing groups with
  | nil =>
    simp only [List.map_nil, packLevels, if_true, List.length_nil, List.replicate_zero,
      Prod.mk.injEq, true_and]
    rw [List.map_eq_flatMap]
    apply List.flatMap_congr
    intro g _
    simp only [denseImage, linearise, List.prod_nil]
    rw [show List.range 1 = [0] from rfl]
    simp
  | cons n ns ih =>
    have hc : ∀ g ∈ denseChildren n groups, ∀ e ∈ g, inBounds ns e.coords = true := by
      intro g hgm
      simp only [denseChildren, List.mem_flatMap, List.mem_map] at hgm
      obtain ⟨g0, hg0, j, _, rfl⟩ := hgm
      exact inBounds_of_mem_child n ns j g0 (hg g0 hg0)
    simp only [List.map_cons, packLevels, ih _ hc, List.length_cons, List.replicate_succ,
      Prod.mk.injEq, true_and]
    simp only [denseChildren, List.flatMap_assoc, List.flatMap_map]
    apply List.flatMap_congr
    intro g hgm
    exact denseImage_child n ns g (hg g hgm)

theorem zip_replicate_eq_map {β γ : Type} (a : β) (l : List γ) :
    (List.replicate l.length a).zip l = l.map (fun x => (a, x)) := by
  induction l with
  | nil => rfl
  | cons x xs ih => simp [List.replicate_succ, ih]

theorem storageEntries_of_identity {α : Type} (dimensions : List Nat) (format : Format)
    (entries : List (CoordinateEntry α))
    (hord : format.ordering = List.range dimensions.length)
    (hlen : ∀ e ∈ entries, e.coords.length = dimensions.length) :
    storageEntries format entries = sortEntries entries := by
  simp only [storageEntries]
  congr 1
  conv_rhs => rw [← List.map_id entries]
  apply List.map_congr_left
  intro e he
  rw [hord, ← hlen e he, permute_range]
  rfl

theorem denseImage_sortEntries {α : Type} [Zero α] [Add α] (dimensions : List Nat)
    (entries : List (CoordinateEntry α))
    (hin : ∀ e ∈ entries, inBounds dimensions e.coords = true) :
    denseImage dimensions (sortEntries entries) = denseImage dimensions entries := by
  simp only [denseImage, sortEntries]
  apply List.map_congr_left
  intro p _
  rw [filter_insertionSort]
  intro a ha b hb hPa hPb
  simp only [decide_eq_true_eq] at hPa hPb
  have hab : a.coords = b.coords :=
    linearise_injective dimensions _ _ (hin a ha) (hin b hb) (hPa.trans hPb.symm)
  simp only [CoordinateEntry.le, hab, lexLE_refl]

theorem pack_dense_eq {α : Type} [Zero α] [Add α] (dimensions : List Nat) (format : Format)
    (entries : List (CoordinateEntry α))
    (hfmt : format.levelTypes = List.replicate dimensions.length LevelType.Dense)
    (hord : format.ordering = List.range dimensions.length)
    (hin : ∀ e ∈ entries, inBounds dimensions e.coords = true) :
    pack dimensions format entries
      = ⟨List.replicate dimensions.length [], denseImage dimensions entries,
          dimensions.prod⟩ := by
  have hlev : storageLevels dimensions format
      = dimensions.map (fun n => (LevelType.Dense, n)) := by
    rw [storageLevels, hfmt, hord, permute_range, zip_replicate_eq_map]
  have hent : storageEntries format entries = sortEntries entries :=
    storageEntries_of_identity dimensions format entries hord
      (fun e he => length_of_inBounds _ _ (hin e he))
  have hsorted : ∀ g ∈ [sortEntries entries], ∀ e ∈ g, inBounds dimensions e.coords = true := by
    intro g hg e he
    rw [List.mem_singleton] at hg
    subst hg
    exact hin e ((List.perm_insertionSort _ entries).subset he)
  simp only [pack, hlev, hent, packLevels_dense dimensions _ hsorted, List.flatMap_singleton,
    denseImage_sortEntries dimensions entries hin]
  congr 1
  simp [denseImage]

theorem foldl_add_eq_sum {α : Type} [AddMonoid α] (l : List α) (v : α) :
    l.foldl (fun x y => x + y) v = v + l.sum := by
  induction l generalizing v with
  | nil => simp
  | cons x xs ih => rw [List.foldl_cons, ih, List.sum_cons, add_assoc]

/-- C5: for every list of dimension sizes, every format of that many levels
that are all dense, with the identity ordering, and every list of entries whose
coordinates lie inside the dimensions, `pack` produces one empty index entry
per level, a values array whose length is the product of the sizes, `nnz` equal
to that length, and at every position `p` the sum of the values of all entries
whose row-major linearised coordinates are `p`: 0 when there is none, the value
itself when there is one, and the values added up, in insertion order, when a
coordinate is listed more than once.  The sum is the sum of a list in an
additive monoid, whatever the packer uses to compute it. -/
theorem pack_dense_image {α : Type} [AddMonoid α] (dimensions : List Nat) (format : Format)
    (entries : List (CoordinateEntry α))
    (hfmt : format.levelTypes = List.replicate dimensions.length LevelType.Dense)
    (hord : format.ordering = List.range dimensions.length)
    (hin : ∀ e ∈ entries, inBounds dimensions e.coords = true) :
    (pack dimensions format entries).indices = List.replicate dimensions.length [] ∧
    (pack dimensions format entries).values.length = dimensions.prod ∧
    (pack dimensions format entries).nnz = dimensions.prod ∧
    ∀ p, p < dimensions.prod →
      (pack dimensions format entries).values[p]? =
        some ((entries.filter (fun e => linearise dimensions e.coords = p)).map
          (fun e => e.value)).sum := by
  have hsum : ∀ l : List α, sumValues l = l.sum := by
    intro l
    cases l with
    | nil => rfl
    | cons v vs => rw [sumValues, foldl_add_eq_sum, List.sum_cons]
  rw [pack_dense_eq dimensions format entries hfmt hord hin]
  refine ⟨rfl, by simp [denseImage], rfl, fun p hp => ?_⟩
  simp [denseImage, List.getElem?_range hp, hsum]

/-- Witness for C5: the vector of size 5 in which the coordinate 1 is listed
twice, with the values 1 and 2, packs to `[0, 3, 0, 0, 0]`: position 1 holds
the sum 3 of the two values and position 0, where no entry lies, holds 0. -/
theorem pack_dense_image_witness :
    (∀ e ∈ Sample.repeated, inBounds [5] e.coords = true) ∧
    (pack [5] (Sample.format ['d']) Sample.repeated).values = [0, 3, 0, 0, 0] ∧
    (pack [5] (Sample.format ['d']) Sample.repeated).indices = [[]] ∧
    (pack [5] (Sample.format ['d']) Sample.repeated).values[1]? = some 3 ∧
    (pack [5] (Sample.format ['d']) Sample.repeated).values[0]? = some 0 :=
  ⟨by decide, by decide,
   (pack_dense_image [5] (Sample.format ['d']) Sample.repeated rfl rfl (by decide)).1,
   (pack_dense_image [5] (Sample.format ['d']) Sample.repeated rfl rfl (by decide)).2.2.2 1
     (by decide),
   (pack_dense_image [5] (Sample.format ['d']) Sample.repeated rfl rfl (by decide)).2.2.2 0
     (by decide)⟩

/-- The dense cases of the storage test with the expected values of the test. -/
theorem pack_dense_tests :
    (pack [5] (Sample.format ['d']) Sample.d5a).values = [0, 1, 0, 0, 2] ∧
    (pack [3, 3] (Sample.format ['d', 'd']) Sample.d33a).values
      = [0, 1, 0, 0, 0, 0, 2, 0, 3] ∧
    (pack [2, 3, 3] (Sample.format ['d', 'd', 'd']) Sample.d233a).values
      = [1, 2, 0, 0, 0, 0, 0, 0, 3, 0, 4, 0, 0, 0, 0, 5, 0, 6] := by
  decide

/-! ## Blocks of a concatenation -/

theorem blockStart_zero {β γ : Type} (h : β → List γ) (l : List β) : blockStart h l 0 = 0 := by
  simp [blockStart]

theorem blockStart_cons_succ {β γ : Type} (h : β → List γ) (x : β) (xs : List β) (pos : Nat) :
    blockStart h (x :: xs) (pos + 1) = (h x).length + blockStart h xs pos := by
  simp [blockStart]

theorem blockStart_succ {β γ : Type} (h : β → List γ) (l : List β) (pos : Nat) (y : β)
    (hy : l[pos]? = some y) : blockStart h l (pos + 1) = blockStart h l pos + (h y).length := by
  induction l generalizing pos with
  | nil => simp at hy
  | cons x xs ih =>
    cases pos with
    | zero =>
      simp only [List.getElem?_cons_zero, Option.some.injEq] at hy
      subst hy
      simp [blockStart]
    | succ k =>
      simp only [List.getElem?_cons_succ] at hy
      rw [blockStart_cons_succ, blockStart_cons_succ, ih k hy, Nat.add_assoc]

theorem blockStart_const {β γ : Type} (h : β → List γ) (n : Nat) (hn : ∀ y, (h y).length = n)
    (l : List β) (pos : Nat) (hpos : pos ≤ l.length) : blockStart h l pos = pos * n := by
  induction l generalizing pos with
  | nil =>
    simp only [List.length_nil, Nat.le_zero] at hpos
    subst hpos
    simp [blockStart]
  | cons x xs ih =>
    cases pos with
    | zero => simp [blockStart]
    | succ k =>
      rw [blockStart_cons_succ, ih k (Nat.le_of_succ_le_succ hpos), hn, Nat.succ_mul,
        Nat.add_comm]

theorem getElem?_flatMap_block {β γ : Type} (h : β → List γ) (l : List β) (pos : Nat) (y : β)
    (i : Nat) (hy : l[pos]? = some y) (hi : i < (h y).length) :
    (l.flatMap h)[blockStart h l pos + i]? = (h y)[i]? := by
  induction l generalizing pos with
  | nil => simp at hy
  | cons x xs ih =>
    cases pos with
    | zero =>
      simp only [List.getElem?_cons_zero, Option.some.injEq] at hy
      subst hy
      rw [blockStart_zero, Nat.zero_add, List.flatMap_cons, List.getElem?_append_left hi]
    | succ k =>
      simp only [List.getElem?_cons_succ] at hy
      rw [blockStart_cons_succ, List.flatMap_cons, Nat.add_assoc,
        List.getElem?_append_right (Nat.le_add_right _ _), Nat.add_sub_cancel_left]
      exact ih k hy

theorem exists_block_of_getElem?_flatMap {β γ : Type} (h : β → List γ) (l : List β) (p : Nat)
    (z : γ) (hz : (l.flatMap h)[p]? = some z) :
    ∃ pos y i, l[pos]? = some y ∧ (h y)[i]? = some z ∧ p = blockStart h l pos + i := by
  induction l generalizing p with
  | nil => simp at hz
  | cons x xs ih =>
    rw [List.flatMap_cons] at hz
    by_cases hp : p < (h x).length
    · rw [List.getElem?_append_left hp] at hz
      exact ⟨0, x, p, by simp, hz, by simp [blockStart_zero]⟩
    · rw [List.getElem?_append_right (Nat.le_of_not_lt hp)] at hz
      obtain ⟨pos, y, i, h1, h2, h3⟩ := ih _ hz
      refine ⟨pos + 1, y, i, by simpa using h1, h2, ?_⟩
      rw [blockStart_cons_succ]
      omega

theorem take_drop_flatMap_block {β γ : Type} (h : β → List γ) (l : List β) (pos : Nat) (y : β)
    (hy : l[pos]? = some y) :
    ((l.flatMap h).drop (blockStart h l pos)).take (h y).length = h y := by
  induction l generalizing pos with
  | nil => simp at hy
  | cons x xs ih =>
    cases pos with
    | zero =>
      simp only [List.getElem?_cons_zero, Option.some.injEq] at hy
      subst hy
      simp [blockStart_zero]
    | succ k =>
      simp only [List.getElem?_cons_succ] at hy
      rw [blockStart_cons_succ, List.flatMap_cons, List.drop_append]
      exact ih k hy

theorem cumulative_getElem? (start : Nat) (counts : List Nat) (i : Nat)
    (hi : i ≤ counts.length) :
    (cumulative start counts)[i]? = some (start + (counts.take i).sum) := by
  induction counts generalizing start i with
  | nil =>
    simp only [List.length_nil, Nat.le_zero] at hi
    subst hi
    simp [cumulative]
  | cons c cs ih =>
    cases i with
    | zero => simp [cumulative]
    | succ k =>
      simp only [cumulative, List.getElem?_cons_succ, List.take_succ_cons, List.sum_cons]
      rw [ih _ k (Nat.le_of_succ_le_succ hi), Nat.add_assoc]

/-! ## Groups and their children -/

theorem mem_distinct (l : List Nat) (x : Nat) : x ∈ distinct l ↔ x ∈ l := by
  induction l with
  | nil => simp [distinct]
  | cons y ys ih =>
    simp only [distinct, List.mem_cons, List.mem_filter, ih, decide_eq_true_eq]
    constructor
    · rintro (h | ⟨h, _⟩)
      · exact Or.inl h
      · exact Or.inr h
    · intro h
      by_cases hxy : x = y
      · exact Or.inl hxy
      · rcases h with h | h
        · exact Or.inl h
        · exact Or.inr ⟨h, hxy⟩

theorem nodup_distinct (l : List Nat) : (distinct l).Nodup := by
  induction l with
  | nil => simp [distinct]
  | cons y ys ih =>
    simp only [distinct, List.nodup_cons, List.mem_filter, decide_eq_true_eq]
    exact ⟨fun h => h.2 rfl, ih.filter _⟩

theorem mem_child {α : Type} (j : Nat) (g : List (CoordinateEntry α)) (e : CoordinateEntry α) :
    e ∈ child j g ↔ (⟨j :: e.coords, e.value⟩ : CoordinateEntry α) ∈ g := by
  simp only [child, List.mem_filterMap]
  constructor
  · rintro ⟨x, hx, hxe⟩
    obtain ⟨coords, v⟩ := x
    cases coords with
    | nil => simp at hxe
    | cons c cs =>
      by_cases hcj : c = j
      · simp only [hcj, if_true, Option.some.injEq] at hxe
        subst hcj
        rw [← hxe]
        exact hx
      · simp [hcj] at hxe
  · intro h
    exact ⟨_, h, by simp⟩

theorem mem_levelCoords {α : Type} (g : List (CoordinateEntry α)) (c : Nat) :
    c ∈ levelCoords g ↔ ∃ e ∈ g, e.coords.head? = some c := by
  simp [levelCoords, List.mem_filterMap]

theorem child_ne_nil {α : Type} (j : Nat) (g : List (CoordinateEntry α))
    (hj : j ∈ distinct (levelCoords g)) : child j g ≠ [] := by
  rw [mem_distinct, mem_levelCoords] at hj
  obtain ⟨e, he, hhead⟩ := hj
  obtain ⟨coords, v⟩ := e
  cases coords with
  | nil => simp at hhead
  | cons c cs =>
    simp only [List.head?_cons, Option.some.injEq] at hhead
    subst hhead
    have hm : (⟨cs, v⟩ : CoordinateEntry α) ∈ child c g := (mem_child c g ⟨cs, v⟩).mpr he
    exact List.ne_nil_of_mem hm

theorem groupOK_child {α : Type} (n j : Nat) (g : List (CoordinateEntry α))
    (hg : groupOK (n + 1) g) : groupOK n (child j g) := by
  constructor
  · intro e he
    have h := hg.1 _ ((mem_child j g e).mp he)
    simpa using h
  · have hmap : (child j g).map (fun e => e.coords)
        = (g.map (fun e => e.coords)).filterMap (fun cs =>
            match cs with
            | c :: cs1 => if c = j then some cs1 else none
            | [] => none) := by
      simp only [child, List.filterMap_map, List.map_filterMap]
      apply List.filterMap_congr
      intro e _
      obtain ⟨coords, v⟩ := e
      cases coords with
      | nil => rfl
      | cons c cs => by_cases hcj : c = j <;> simp [hcj]
    rw [hmap]
    apply hg.2.filterMap
    intro a a1 b hb hb1
    cases a with
    | nil => simp at hb
    | cons c cs =>
      cases a1 with
      | nil => simp at hb1
      | cons c1 cs1 =>
        by_cases hcj : c = j
        · by_cases hcj1 : c1 = j
          · simp only [hcj, hcj1, if_true, Option.mem_def, Option.some.injEq] at hb hb1
            rw [hcj, hcj1, hb, hb1]
          · simp [hcj1] at hb1
        · simp [hcj] at hb

theorem blockStart_congr {β γ δ : Type} (h : β → List γ) (k : β → List δ)
    (hk : ∀ y, (h y).length = (k y).length) (l : List β) (pos : Nat) :
    blockStart h l pos = blockStart k l pos := by
  simp [blockStart, hk]

theorem sparseSegments_getElem? {α : Type} (groups : List (List (CoordinateEntry α)))
    (pos : Nat) (hpos : pos ≤ groups.length) :
    (sparseSegments groups)[pos]?
      = some (blockStart (fun g => distinct (levelCoords g)) groups pos) := by
  rw [sparseSegments, cumulative_getElem? _ _ _ (by simpa using hpos), Nat.zero_add,
    blockStart, List.map_take]

theorem sparse_block {α : Type} (groups : List (List (CoordinateEntry α))) (pos : Nat)
    (g : List (CoordinateEntry α)) (hg : groups[pos]? = some g) :
    ∃ a, (sparseSegments groups)[pos]? = some a ∧
      (sparseSegments groups)[pos + 1]? = some (a + (distinct (levelCoords g)).length) ∧
      ((sparseIndices groups).drop a).take (distinct (levelCoords g)).length
        = distinct (levelCoords g) ∧
      ∀ i c, (distinct (levelCoords g))[i]? = some c →
        (sparseChildren groups)[a + i]? = some (child c g) := by
  have hlt : pos < groups.length := by
    rcases List.getElem?_eq_some_iff.mp hg with ⟨h, _⟩
    exact h
  refine ⟨blockStart (fun g => distinct (levelCoords g)) groups pos,
    sparseSegments_getElem? groups pos (Nat.le_of_lt hlt), ?_, ?_, ?_⟩
  · rw [sparseSegments_getElem? groups (pos + 1) hlt, blockStart_succ _ _ _ _ hg]
  · exact take_drop_flatMap_block (fun g => distinct (levelCoords g)) groups pos g hg
  · intro i c hc
    have hi : i < (distinct (levelCoords g)).length := by
      rcases List.getElem?_eq_some_iff.mp hc with ⟨h, _⟩
      exact h
    rw [blockStart_congr (fun g => distinct (levelCoords g))
      (fun g => (distinct (levelCoords g)).map (fun j => child j g)) (by simp), sparseChildren,
      getElem?_flatMap_block _ groups pos g i hg (by simpa using hi)]
    simp [hc]

theorem dense_block {α : Type} (size : Nat) (groups : List (List (CoordinateEntry α)))
    (pos : Nat) (g : List (CoordinateEntry α)) (hg : groups[pos]? = some g) (c : Nat)
    (hc : c < size) : (denseChildren size groups)[pos * size + c]? = some (child c g) := by
  have hlt : pos < groups.length := by
    rcases List.getElem?_eq_some_iff.mp hg with ⟨h, _⟩
    exact h
  rw [← blockStart_const (fun g => (List.range size).map (fun j => child j g)) size (by simp)
    groups pos (Nat.le_of_lt hlt), denseChildren,
    getElem?_flatMap_block _ groups pos g c hg (by simpa using hc)]
  simp [List.getElem?_range hc]

theorem sparse_block_inv {α : Type} (groups : List (List (CoordinateEntry α))) (p : Nat)
    (x : List (CoordinateEntry α)) (hx : (sparseChildren groups)[p]? = some x) :
    ∃ pos g i c, groups[pos]? = some g ∧ (distinct (levelCoords g))[i]? = some c ∧
      x = child c g ∧ p = blockStart (fun g => distinct (levelCoords g)) groups pos + i := by
  obtain ⟨pos, g, i, h1, h2, h3⟩ := exists_block_of_getElem?_flatMap
    (fun g => (distinct (levelCoords g)).map (fun j => child j g)) groups p x hx
  simp only [List.getElem?_map, Option.map_eq_some'] at h2
  obtain ⟨c, hc, hcx⟩ := h2
  refine ⟨pos, g, i, c, h1, hc, hcx.symm, ?_⟩
  rw [h3, blockStart_congr (fun g => distinct (levelCoords g))
    (fun g => (distinct (levelCoords g)).map (fun j => child j g)) (by simp)]

theorem dense_block_inv {α : Type} (size : Nat) (groups : List (List (CoordinateEntry α)))
    (p : Nat) (x : List (CoordinateEntry α)) (hx : (denseChildren size groups)[p]? = some x) :
    ∃ pos g c, groups[pos]? = some g ∧ c < size ∧ x = child c g ∧ p = pos * size + c := by
  obtain ⟨pos, g, i, h1, h2, h3⟩ := exists_block_of_getElem?_flatMap
    (fun g => (List.range size).map (fun j => child j g)) groups p x hx
  have hlt : pos < groups.length := by
    rcases List.getElem?_eq_some_iff.mp h1 with ⟨h, _⟩
    exact h
  simp only [List.getElem?_map, Option.map_eq_some'] at h2
  obtain ⟨c, hc, hcx⟩ := h2
  have hi : i < size := by
    rcases List.getElem?_eq_some_iff.mp hc with ⟨h, _⟩
    simpa using h
  rw [List.getElem?_range hi, Option.some.injEq] at hc
  subst hc
  refine ⟨pos, g, i, h1, hi, hcx.symm, ?_⟩
  rw [h3, blockStart_const _ size (by simp) groups pos (Nat.le_of_lt hlt)]

/-! ## Slots and values -/

theorem length_finalGroups {α : Type} [Zero α] [Add α] (levels : List (LevelType × Nat))
    (dense : Bool) (groups : List (List (CoordinateEntry α))) :
    (finalGroups levels groups).length
      = slotCount levels groups.length (packLevels levels dense groups).1 := by
  induction levels generalizing dense groups with
  | nil => simp [finalGroups, slotCount]
  | cons level levels ih =>
    obtain ⟨type, size⟩ := level
    cases type with
    | Dense =>
      simp only [finalGroups, packLevels, slotCount]
      rw [ih true, length_denseChildren]
    | Sparse =>
      simp only [finalGroups, packLevels, slotCount]
      rw [ih false, length_sparseChildren]

theorem slotOf_reaches {α : Type} [Zero α] [Add α] (levels : List (LevelType × Nat))
    (dense : Bool) (groups : List (List (CoordinateEntry α))) (pos : Nat)
    (g : List (CoordinateEntry α)) (coords : List Nat) (v : α)
    (hg : groups[pos]? = some g) (he : (⟨coords, v⟩ : CoordinateEntry α) ∈ g)
    (hin : inLevels levels coords = true) :
    ∃ p gf, slotOf levels (packLevels levels dense groups).1 pos coords = some p ∧
      (finalGroups levels groups)[p]? = some gf ∧ (⟨[], v⟩ : CoordinateEntry α) ∈ gf := by
  induction levels generalizing dense groups pos g coords with
  | nil =>
    cases coords with
    | nil => exact ⟨pos, g, rfl, hg, he⟩
    | cons c cs => simp [inLevels] at hin
  | cons level levels ih =>
    obtain ⟨type, size⟩ := level
    cases coords with
    | nil => cases type <;> simp [inLevels] at hin
    | cons c cs =>
      have hchild : (⟨cs, v⟩ : CoordinateEntry α) ∈ child c g := (mem_child c g ⟨cs, v⟩).mpr he
      cases type with
      | Dense =>
        simp only [inLevels, Bool.and_eq_true, decide_eq_true_eq] at hin
        obtain ⟨p, gf, h1, h2, h3⟩ := ih true (denseChildren size groups) (pos * size + c)
          (child c g) cs (dense_block size groups pos g hg c hin.1) hchild hin.2
        exact ⟨p, gf, by simp [packLevels, slotOf, hin.1, h1], h2, h3⟩
      | Sparse =>
        simp only [inLevels] at hin
        obtain ⟨a, ha, hb, hslice, hchildren⟩ := sparse_block groups pos g hg
        have hmem : c ∈ distinct (levelCoords g) := by
          rw [mem_distinct, mem_levelCoords]
          exact ⟨_, he, rfl⟩
        have hidx : (distinct (levelCoords g))[(distinct (levelCoords g)).indexOf c]? = some c :=
          List.getElem?_indexOf hmem
        obtain ⟨p, gf, h1, h2, h3⟩ := ih false (sparseChildren groups)
          (a + (distinct (levelCoords g)).indexOf c) (child c g) cs
          (hchildren _ c hidx) hchild hin
        refine ⟨p, gf, ?_, h2, h3⟩
        simp only [packLevels, slotOf, ha, hb, Nat.add_sub_cancel_left, hslice, hmem, if_true]
        exact h1

theorem slotOf_of_final {α : Type} [Zero α] [Add α] (levels : List (LevelType × Nat))
    (dense : Bool) (groups : List (List (CoordinateEntry α))) (p : Nat)
    (gf : List (CoordinateEntry α)) (e1 : CoordinateEntry α)
    (hp : (finalGroups levels groups)[p]? = some gf) (he : e1 ∈ gf) :
    ∃ pos g e, groups[pos]? = some g ∧ e ∈ g ∧ e.value = e1.value ∧
      slotOf levels (packLevels levels dense groups).1 pos e.coords = some p := by
  induction levels generalizing dense groups with
  | nil => exact ⟨p, gf, e1, hp, he, rfl, rfl⟩
  | cons level levels ih =>
    obtain ⟨type, size⟩ := level
    cases type with
    | Dense =>
      obtain ⟨pos1, g1, e2, h1, h2, h3, h4⟩ := ih true (denseChildren size groups) hp
      obtain ⟨pos, g, c, hg, hc, hg1, hpos⟩ := dense_block_inv size groups pos1 g1 h1
      subst hg1
      refine ⟨pos, g, ⟨c :: e2.coords, e2.value⟩, hg, (mem_child c g e2).mp h2, h3, ?_⟩
      simp only [packLevels, slotOf, hc, if_true, ← hpos]
      exact h4
    | Sparse =>
      obtain ⟨pos1, g1, e2, h1, h2, h3, h4⟩ := ih false (sparseChildren groups) hp
      obtain ⟨pos, g, i, c, hg, hic, hg1, hpos⟩ := sparse_block_inv groups pos1 g1 h1
      subst hg1
      obtain ⟨a, ha, hb, hslice, _⟩ := sparse_block groups pos g hg
      have ha1 : a = blockStart (fun g => distinct (levelCoords g)) groups pos := by
        have hlt : pos < groups.length := by
          rcases List.getElem?_eq_some_iff.mp hg with ⟨h, _⟩
          exact h
        rw [sparseSegments_getElem? groups pos (Nat.le_of_lt hlt)] at ha
        exact (Option.some.inj ha).symm
      have hi : i < (distinct (levelCoords g)).length := by
        rcases List.getElem?_eq_some_iff.mp hic with ⟨h, _⟩
        exact h
      have hci : (distinct (levelCoords g))[i] = c := by
        rcases List.getElem?_eq_some_iff.mp hic with ⟨_, h⟩
        exact h
      have hmem : c ∈ distinct (levelCoords g) := by
        rw [← hci]
        exact List.getElem_mem _
      have hindex : (distinct (levelCoords g)).indexOf c = i := by
        rw [← hci]
        exact List.indexOf_getElem (nodup_distinct _) i hi
      subst ha1
      refine ⟨pos, g, ⟨c :: e2.coords, e2.value⟩, hg, (mem_child c g e2).mp h2, h3, ?_⟩
      simp only [packLevels, slotOf, ha, hb, Nat.add_sub_cancel_left, hslice, hmem, if_true,
        hindex, ← hpos]
      exact h4

theorem length_le_one_of_groupOK_zero {α : Type} (g : List (CoordinateEntry α))
    (hg : groupOK 0 g) : g.length ≤ 1 := by
  match g, hg with
  | [], _ => simp
  | [_], _ => simp
  | a :: b :: rest, hg =>
    exfalso
    have ha := hg.1 a (by simp)
    have hb := hg.1 b (by simp)
    have hnd := hg.2
    simp only [List.map_cons, List.nodup_cons, List.mem_cons, not_or] at hnd
    exact hnd.1.1 ((List.length_eq_zero.mp ha).trans (List.length_eq_zero.mp hb).symm)

theorem groupOK_denseChildren {α : Type} (n size : Nat)
    (groups : List (List (CoordinateEntry α))) (hok : ∀ g ∈ groups, groupOK (n + 1) g) :
    ∀ g ∈ denseChildren size groups, groupOK n g := by
  intro g hg
  simp only [denseChildren, List.mem_flatMap, List.mem_map] at hg
  obtain ⟨g0, hg0, j, _, rfl⟩ := hg
  exact groupOK_child n j g0 (hok g0 hg0)

theorem groupOK_sparseChildren {α : Type} (n : Nat)
    (groups : List (List (CoordinateEntry α))) (hok : ∀ g ∈ groups, groupOK (n + 1) g) :
    ∀ g ∈ sparseChildren groups, groupOK n g ∧ g ≠ [] := by
  intro g hg
  simp only [sparseChildren, List.mem_flatMap, List.mem_map] at hg
  obtain ⟨g0, hg0, j, hj, rfl⟩ := hg
  exact ⟨groupOK_child n j g0 (hok g0 hg0), child_ne_nil j g0 hj⟩

theorem groupOK_finalGroups {α : Type} (levels : List (LevelType × Nat))
    (groups : List (List (CoordinateEntry α))) (hok : ∀ g ∈ groups, groupOK levels.length g) :
    ∀ g ∈ finalGroups levels groups, groupOK 0 g := by
  induction levels generalizing groups with
  | nil => exact hok
  | cons level levels ih =>
    obtain ⟨type, size⟩ := level
    cases type with
    | Dense => exact ih _ (groupOK_denseChildren _ size groups hok)
    | Sparse => exact ih _ (fun g hg => (groupOK_sparseChildren _ groups hok g hg).1)

theorem values_eq_map_finalGroups {α : Type} [Zero α] [Add α]
    (levels : List (LevelType × Nat)) (dense : Bool) (groups : List (List (CoordinateEntry α)))
    (hok : ∀ g ∈ groups, groupOK levels.length g)
    (hne : dense = false → ∀ g ∈ groups, g ≠ []) :
    (packLevels levels dense groups).2
      = (finalGroups levels groups).map (fun g => sumValues (g.map (fun e => e.value))) := by
  induction levels generalizing dense groups with
  | nil =>
    cases dense with
    | true => simp [packLevels, finalGroups]
    | false =>
      simp only [packLevels, finalGroups, Bool.false_eq_true, if_false]
      rw [List.map_eq_flatMap]
      apply List.flatMap_congr
      intro g hg
      have h1 := length_le_one_of_groupOK_zero g (hok g hg)
      have h2 := hne rfl g hg
      match g, h1, h2 with
      | [e], _, _ => simp [sumValues]
      | [], _, h2 => exact absurd rfl h2
      | _ :: _ :: _, h1, _ => simp at h1
  | cons level levels ih =>
    obtain ⟨type, size⟩ := level
    cases type with
    | Dense =>
      simp only [packLevels, finalGroups]
      exact ih true _ (groupOK_denseChildren _ size groups hok) (by simp)
    | Sparse =>
      simp only [packLevels, finalGroups]
      exact ih false _ (fun g hg => (groupOK_sparseChildren _ groups hok g hg).1)
        (fun _ g hg => (groupOK_sparseChildren _ groups hok g hg).2)

/-! ## Storage order -/

theorem getD_lt_of_inBounds : ∀ (ns cs : List Nat) (d : Nat), inBounds ns cs = true →
    d < ns.length → cs.getD d 0 < ns.getD d 0
  | [], _, _, _, hd => by simp at hd
  | _ :: _, [], _, h, _ => by simp [inBounds] at h
  | n :: ns, c :: cs, 0, h, _ => by
    simp only [inBounds, Bool.and_eq_true, decide_eq_true_eq] at h
    simpa using h.1
  | n :: ns, c :: cs, d + 1, h, hd => by
    simp only [inBounds, Bool.and_eq_true, decide_eq_true_eq] at h
    simpa using getD_lt_of_inBounds ns cs d h.2 (by simpa using hd)

theorem inLevels_zip_permute (dims cs : List Nat) :
    ∀ (ordering : List Nat) (types : List LevelType), types.length = ordering.length →
      (∀ d ∈ ordering, cs.getD d 0 < dims.getD d 0) →
      inLevels (types.zip (permute ordering dims)) (permute ordering cs) = true
  | [], [], _, _ => by simp [permute, inLevels]
  | [], _ :: _, h, _ => by simp at h
  | _ :: _, [], h, _ => by simp at h
  | d :: ordering, t :: types, h, hlt => by
    have ih := inLevels_zip_permute dims cs ordering types (by simpa using h)
      (fun x hx => hlt x (List.mem_cons_of_mem _ hx))
    have hd := hlt d (List.mem_cons_self _ _)
    simp only [permute, List.map_cons, List.zip_cons_cons] at ih ⊢
    cases t with
    | Dense =>
      simp only [inLevels, Bool.and_eq_true, decide_eq_true_eq]
      exact ⟨hd, ih⟩
    | Sparse =>
      simp only [inLevels]
      exact ih

theorem permute_injective (ordering : List Nat) (n : Nat)
    (hord : ∀ d, d < n → d ∈ ordering) (cs cs1 : List Nat) (h : cs.length = n)
    (h1 : cs1.length = n) (heq : permute ordering cs = permute ordering cs1) : cs = cs1 := by
  simp only [permute, List.map_inj_left] at heq
  apply List.ext_getElem (h.trans h1.symm)
  intro i hi hi1
  have := heq i (hord i (h ▸ hi))
  simpa [List.getD_eq_getElem?_getD, List.getElem?_eq_getElem hi,
    List.getElem?_eq_getElem hi1] using this

theorem mem_storageEntries {α : Type} (format : Format) (entries : List (CoordinateEntry α))
    (e : CoordinateEntry α) :
    e ∈ storageEntries format entries ↔
      ∃ x ∈ entries, e = ⟨permute format.ordering x.coords, x.value⟩ := by
  rw [storageEntries, sortEntries, (List.perm_insertionSort _ _).mem_iff, List.mem_map]
  constructor
  · rintro ⟨x, hx, rfl⟩
    exact ⟨x, hx, rfl⟩
  · rintro ⟨x, hx, rfl⟩
    exact ⟨x, hx, rfl⟩

theorem length_storageLevels (dimensions : List Nat) (format : Format)
    (hlen : format.levelTypes.length = dimensions.length)
    (hord : format.ordering.length = dimensions.length) :
    (storageLevels dimensions format).length = dimensions.length := by
  simp [storageLevels, permute, hlen, hord]

theorem groupOK_storageEntries {α : Type} (dimensions : List Nat) (format : Format)
    (entries : List (CoordinateEntry α))
    (hord : format.ordering.Perm (List.range dimensions.length))
    (hin : ∀ e ∈ entries, inBounds dimensions e.coords = true)
    (hdist : (entries.map (fun e => e.coords)).Nodup) :
    groupOK dimensions.length (storageEntries format entries) := by
  have hordlen : format.ordering.length = dimensions.length := by
    simpa using hord.length_eq
  constructor
  · intro e he
    obtain ⟨x, _, rfl⟩ := (mem_storageEntries format entries e).mp he
    simp [permute, hordlen]
  · have hperm : ((storageEntries format entries).map (fun e => e.coords)).Perm
        ((entries.map (fun e => e.coords)).map (permute format.ordering)) := by
      rw [storageEntries, sortEntries, List.map_map]
      refine ((List.perm_insertionSort _ _).map _).trans ?_
      rw [List.map_map]
      exact List.Perm.of_eq rfl
    rw [hperm.nodup_iff]
    apply List.Nodup.map_on _ hdist
    intro cs hcs cs1 hcs1 heq
    simp only [List.mem_map] at hcs hcs1
    obtain ⟨x, hx, rfl⟩ := hcs
    obtain ⟨x1, hx1, rfl⟩ := hcs1
    exact permute_injective format.ordering dimensions.length
      (fun d hd => hord.mem_iff.mpr (List.mem_range.mpr hd)) _ _
      (length_of_inBounds _ _ (hin x hx)) (length_of_inBounds _ _ (hin x1 hx1)) heq

theorem inLevels_storageEntries (dimensions : List Nat) (format : Format)
    (hlen : format.levelTypes.length = dimensions.length)
    (hord : format.ordering.Perm (List.range dimensions.length))
    (coords : List Nat) (hin : inBounds dimensions coords = true) :
    inLevels (storageLevels dimensions format) (permute format.ordering coords) = true := by
  apply inLevels_zip_permute
  · rw [hlen]
    simpa using hord.length_eq.symm
  · intro d hd
    exact getD_lt_of_inBounds _ _ d hin (List.mem_range.mp (hord.mem_iff.mp hd))

/-- C10: for every list of dimension sizes, every format with one level per
dimension whose ordering is a permutation of the dimensions, and every list of
entries whose coordinates lie inside the dimensions and are pairwise distinct,
the values array has one slot per stored leaf position: its length, and `nnz`,
equal the slot count obtained by starting from 1, multiplying by the size at
every dense level and replacing by the number of stored indices at every
sparse level; the value of every entry sits at the slot reached by walking its
coordinates (in storage order) through the levels; and every slot that no
entry reaches holds 0. -/
theorem pack_values_slots {α : Type} [Zero α] [Add α] (dimensions : List Nat)
    (format : Format) (entries : List (CoordinateEntry α))
    (hlen : format.levelTypes.length = dimensions.length)
    (hord : format.ordering.Perm (List.range dimensions.length))
    (hin : ∀ e ∈ entries, inBounds dimensions e.coords = true)
    (hdist : (entries.map (fun e => e.coords)).Nodup) :
    (pack dimensions format entries).values.length
      = slotCount (storageLevels dimensions format) 1
          (pack dimensions format entries).indices ∧
    (pack dimensions format entries).nnz = (pack dimensions format entries).values.length ∧
    (∀ e ∈ entries, ∃ p,
      slotOf (storageLevels dimensions format) (pack dimensions format entries).indices 0
          (permute format.ordering e.coords) = some p ∧
      (pack dimensions format entries).values[p]? = some e.value) ∧
    (∀ p, p < (pack dimensions format entries).values.length →
      (∀ e ∈ entries,
        slotOf (storageLevels dimensions format) (pack dimensions format entries).indices 0
          (permute format.ordering e.coords) ≠ some p) →
      (pack dimensions format entries).values[p]? = some 0) := by
  have hordlen : format.ordering.length = dimensions.length := by
    simpa using hord.length_eq
  have hok : ∀ g ∈ [storageEntries format entries],
      groupOK (storageLevels dimensions format).length g := by
    intro g hg
    rw [List.mem_singleton] at hg
    subst hg
    rw [length_storageLevels dimensions format hlen hordlen]
    exact groupOK_storageEntries dimensions format entries hord hin hdist
  have hvalues := values_eq_map_finalGroups (storageLevels dimensions format) true
    [storageEntries format entries] hok (by simp)
  have hsmall := groupOK_finalGroups (storageLevels dimensions format)
    [storageEntries format entries] hok
  simp only [pack]
  refine ⟨?_, trivial, ?_, ?_⟩
  · rw [hvalues, List.length_map, length_finalGroups _ true]
    rfl
  · intro e he
    have hmem : (⟨permute format.ordering e.coords, e.value⟩ : CoordinateEntry α)
        ∈ storageEntries format entries :=
      (mem_storageEntries format entries _).mpr ⟨e, he, rfl⟩
    obtain ⟨p, gf, h1, h2, h3⟩ := slotOf_reaches (storageLevels dimensions format) true
      [storageEntries format entries] 0 _ _ e.value rfl hmem
      (inLevels_storageEntries dimensions format hlen hord e.coords (hin e he))
    refine ⟨p, h1, ?_⟩
    rw [hvalues, List.getElem?_map, h2]
    have hgf := length_le_one_of_groupOK_zero gf (hsmall gf (List.getElem?_mem h2))
    match gf, hgf, h3 with
    | [x], _, h3 =>
      rw [List.mem_singleton] at h3
      subst h3
      rfl
    | [], _, h3 => simp at h3
    | _ :: _ :: _, hgf, _ => simp at hgf
  · intro p hp hno
    rw [hvalues, List.length_map] at hp
    rw [hvalues, List.getElem?_map, List.getElem?_eq_getElem hp]
    cases hgf : (finalGroups (storageLevels dimensions format)
        [storageEntries format entries])[p] with
    | nil => rfl
    | cons e1 rest =>
      exfalso
      have hp1 : (finalGroups (storageLevels dimensions format)
          [storageEntries format entries])[p]? = some (e1 :: rest) := by
        rw [List.getElem?_eq_getElem hp, hgf]
      obtain ⟨pos, g, e, h1, h2, _, h4⟩ := slotOf_of_final (storageLevels dimensions format)
        true [storageEntries format entries] p (e1 :: rest) e1 hp1 (List.mem_cons_self _ _)
      have hpos : pos = 0 := by
        rcases List.getElem?_eq_some_iff.mp h1 with ⟨h, _⟩
        simpa using h
      subst hpos
      simp only [List.getElem?_cons_zero, Option.some.injEq] at h1
      subst h1
      obtain ⟨x, hx, rfl⟩ := (mem_storageEntries format entries e).mp h2
      exact hno x hx h4

/-- Witness for C10: the 3x3 matrix of the test in format `sd` has two stored
rows of three slots each, `[0, 1, 0, 2, 0, 3]`. -/
theorem pack_values_slots_witness :
    (pack [3, 3] (Sample.format ['s', 'd']) Sample.d33a).values = [0, 1, 0, 2, 0, 3] ∧
    (pack [3, 3] (Sample.format ['s', 'd']) Sample.d33a).values.length
      = slotCount (storageLevels [3, 3] (Sample.format ['s', 'd'])) 1
          (pack [3, 3] (Sample.format ['s', 'd']) Sample.d33a).indices :=
  ⟨by decide,
   (pack_values_slots [3, 3] (Sample.format ['s', 'd']) Sample.d33a (by decide)
      (List.Perm.refl _) (by decide) (by decide)).1⟩

/-! ## Sorted groups -/

theorem lexLE_total : ∀ a b : List Nat, lexLE a b = true ∨ lexLE b a = true
  | [], _ => Or.inl rfl
  | _ :: _, [] => Or.inr rfl
  | a :: as, b :: bs => by
    simp only [lexLE, Bool.or_eq_true, Bool.and_eq_true, decide_eq_true_eq, beq_iff_eq]
    rcases Nat.lt_trichotomy a b with h | h | h
    · exact Or.inl (Or.inl h)
    · rcases lexLE_total as bs with h1 | h1
      · exact Or.inl (Or.inr ⟨h, h1⟩)
      · exact Or.inr (Or.inr ⟨h.symm, h1⟩)
    · exact Or.inr (Or.inl h)

theorem lexLE_trans : ∀ a b c : List Nat, lexLE a b = true → lexLE b c = true →
    lexLE a c = true
  | [], _, _, _, _ => rfl
  | _ :: _, [], _, h, _ => by simp [lexLE] at h
  | _ :: _, _ :: _, [], _, h => by simp [lexLE] at h
  | a :: as, b :: bs, c :: cs, h1, h2 => by
    simp only [lexLE, Bool.or_eq_true, Bool.and_eq_true, decide_eq_true_eq, beq_iff_eq]
      at h1 h2 ⊢
    rcases h1 with h1 | ⟨h1, h1'⟩
    · rcases h2 with h2 | ⟨h2, _⟩
      · exact Or.inl (by omega)
      · exact Or.inl (by omega)
    · rcases h2 with h2 | ⟨h2, h2'⟩
      · exact Or.inl (by omega)
      · exact Or.inr ⟨by omega, lexLE_trans as bs cs h1' h2'⟩

theorem sorted_sortEntries {α : Type} (entries : List (CoordinateEntry α)) :
    (sortEntries entries).Pairwise CoordinateEntry.le := by
  haveI : IsTotal (CoordinateEntry α) CoordinateEntry.le :=
    ⟨fun a b => lexLE_total a.coords b.coords⟩
  haveI : IsTrans (CoordinateEntry α) CoordinateEntry.le :=
    ⟨fun a b c => lexLE_trans a.coords b.coords c.coords⟩
  exact List.sorted_insertionSort CoordinateEntry.le entries

theorem sorted_child {α : Type} (j : Nat) (g : List (CoordinateEntry α))
    (hs : g.Pairwise CoordinateEntry.le) : (child j g).Pairwise CoordinateEntry.le := by
  unfold child
  apply hs.filterMap
  intro a a1 hle b hb b1 hb1
  obtain ⟨coords, v⟩ := a
  obtain ⟨coords1, v1⟩ := a1
  cases coords with
  | nil => simp at hb
  | cons c cs =>
    cases coords1 with
    | nil => simp at hb1
    | cons c1 cs1 =>
      by_cases hcj : c = j
      · by_cases hcj1 : c1 = j
        · simp only [hcj, hcj1, if_true, Option.mem_def, Option.some.injEq] at hb hb1
          subst hb hb1
          simp only [CoordinateEntry.le, lexLE, hcj, hcj1, Bool.or_eq_true, Bool.and_eq_true,
            decide_eq_true_eq, beq_iff_eq] at hle ⊢
          rcases hle with h | ⟨_, h⟩
          · omega
          · exact h
        · simp [hcj1] at hb1
      · simp [hcj] at hb

theorem regroup_filter {β : Type} (k : β → Nat) (l : List β)
    (hs : l.Pairwise (fun a b => k a ≤ k b)) :
    (distinct (l.map k)).flatMap (fun j => l.filter (fun x => k x = j)) = l := by
  induction l with
  | nil => simp [distinct]
  | cons x xs ih =>
    have hxs := List.pairwise_cons.mp hs
    have ih1 := ih hxs.2
    have htail : ((distinct (xs.map k)).filter (fun y => y ≠ k x)).flatMap
          (fun j => (x :: xs).filter (fun z => k z = j))
        = ((distinct (xs.map k)).filter (fun y => y ≠ k x)).flatMap
          (fun j => xs.filter (fun z => k z = j)) := by
      apply List.flatMap_congr
      intro j hj
      simp only [List.mem_filter, decide_eq_true_eq] at hj
      have hne : ¬ (k x = j) := fun h => hj.2 h.symm
      simp [List.filter_cons, hne]
    simp only [List.map_cons, distinct, List.flatMap_cons, htail]
    simp only [List.filter_cons, decide_True, if_true, List.cons_append, List.cons.injEq,
      true_and]
    cases xs with
    | nil => simp [distinct]
    | cons y ys =>
      have hxy : k x ≤ k y := hxs.1 y (List.mem_cons_self _ _)
      by_cases hy : k y = k x
      · have hidem : (((distinct (ys.map k)).filter (fun z => z ≠ k y)).filter
            (fun z => z ≠ k x)) = (distinct (ys.map k)).filter (fun z => z ≠ k y) := by
          rw [List.filter_filter]
          apply List.filter_congr
          intro z _
          simp [hy]
        conv_rhs => rw [← ih1]
        simp only [List.map_cons, distinct, List.filter_cons, hy, ne_eq, not_true_eq_false,
          decide_False, Bool.false_eq_true, if_false, List.flatMap_cons, decide_True, if_true]
        simp only [hy] at hidem
        simp only [ne_eq] at hidem ⊢
        rw [hidem]
      · have hlt : k x < k y := by omega
        have hall : ∀ z ∈ y :: ys, k x < k z := by
          intro z hz
          rcases List.mem_cons.mp hz with rfl | hz
          · exact hlt
          · exact lt_of_lt_of_le hlt ((List.pairwise_cons.mp hxs.2).1 z hz)
        have hnil : (y :: ys).filter (fun z => decide (k z = k x)) = [] := by
          rw [List.filter_eq_nil_iff]
          intro z hz
          have := hall z hz
          simp only [decide_eq_true_eq]
          omega
        have hself : (distinct ((y :: ys).map k)).filter (fun z => z ≠ k x)
            = distinct ((y :: ys).map k) := by
          rw [List.filter_eq_self]
          intro z hz
          rw [mem_distinct, List.mem_map] at hz
          obtain ⟨w, hw, rfl⟩ := hz
          have := hall w hw
          simp only [ne_eq, decide_not, Bool.not_eq_true', decide_eq_false_iff_not]
          omega
        rw [hnil, hself, List.nil_append]
        exact ih1

theorem regroup_child {α : Type} (g : List (CoordinateEntry α))
    (hne : ∀ e ∈ g, e.coords ≠ []) (hs : g.Pairwise CoordinateEntry.le) :
    (distinct (levelCoords g)).flatMap
        (fun c => (child c g).map (fun e => (c :: e.coords, e.value)))
      = g.map CoordinateEntry.toPair := by
  have hcoords : levelCoords g = g.map (fun e => e.coords.headD 0) := by
    clear hs
    induction g with
    | nil => rfl
    | cons e g ih =>
      have ih1 := ih (fun x hx => hne x (List.mem_cons_of_mem _ hx))
      have he := hne e (List.mem_cons_self _ _)
      obtain ⟨coords, v⟩ := e
      cases coords with
      | nil => exact absurd rfl he
      | cons c cs =>
        simp only [levelCoords, List.filterMap_cons, List.head?_cons, List.map_cons,
          List.headD_cons] at ih1 ⊢
        rw [ih1]
  have hchild : ∀ c, (child c g).map (fun e => (c :: e.coords, e.value))
      = (g.filter (fun e => e.coords.headD 0 = c)).map CoordinateEntry.toPair := by
    intro c
    clear hs hcoords
    induction g with
    | nil => rfl
    | cons e g ih =>
      have ih1 := ih (fun x hx => hne x (List.mem_cons_of_mem _ hx))
      have he := hne e (List.mem_cons_self _ _)
      obtain ⟨coords, v⟩ := e
      cases coords with
      | nil => exact absurd rfl he
      | cons c1 cs =>
        simp only [child, List.filterMap_cons] at ih1 ⊢
        by_cases h : c1 = c
        · subst h
          simp [List.filter_cons, CoordinateEntry.toPair, ih1]
        · simp [List.filter_cons, h, ih1]
  have hsorted : g.Pairwise (fun a b => a.coords.headD 0 ≤ b.coords.headD 0) := by
    apply hs.imp_of_mem
    intro a b ha hb hle
    have hna := hne a ha
    have hnb := hne b hb
    obtain ⟨ca, va⟩ := a
    obtain ⟨cb, vb⟩ := b
    cases ca with
    | nil => exact absurd rfl hna
    | cons a1 as =>
      cases cb with
      | nil => exact absurd rfl hnb
      | cons b1 bs =>
        simp only [CoordinateEntry.le, lexLE, Bool.or_eq_true, Bool.and_eq_true,
          decide_eq_true_eq, beq_iff_eq] at hle
        simp only [List.headD_cons]
        rcases hle with h | ⟨h, _⟩ <;> omega
  simp only [hchild, hcoords]
  rw [← List.map_flatMap, regroup_filter (fun e => e.coords.headD 0) g hsorted]

theorem walk_sparse_levels {α : Type} [Zero α] [Add α] (sizes : List Nat) (dense : Bool)
    (groups : List (List (CoordinateEntry α))) (pos : Nat) (g : List (CoordinateEntry α))
    (hg : groups[pos]? = some g)
    (hok : ∀ g ∈ groups, groupOK sizes.length g ∧ g.Pairwise CoordinateEntry.le)
    (hbase : sizes = [] → dense = false ∧ ∀ g ∈ groups, g ≠ []) :
    walk (sizes.map (fun n => (LevelType.Sparse, n)))
        (packLevels (sizes.map (fun n => (LevelType.Sparse, n))) dense groups).1
        (packLevels (sizes.map (fun n => (LevelType.Sparse, n))) dense groups).2 pos
      = g.map CoordinateEntry.toPair := by
  induction sizes generalizing dense groups pos g with
  | nil =>
    obtain ⟨hd, hne⟩ := hbase rfl
    have hv := values_eq_map_finalGroups ([] : List (LevelType × Nat)) dense groups
      (fun g hg => (hok g hg).1) (fun _ => hne)
    simp only [List.map_nil, finalGroups] at hv ⊢
    have hmem := List.getElem?_mem hg
    have h1 := length_le_one_of_groupOK_zero g (hok g hmem).1
    have h2 := hne g hmem
    have h3 := (hok g hmem).1.1
    simp only [walk, hv, List.getElem?_map, hg, Option.map_some']
    match g, h1, h2, h3 with
    | [e], _, _, h3 =>
      have hc := List.length_eq_zero.mp (h3 e (List.mem_singleton_self _))
      simp [sumValues, CoordinateEntry.toPair, hc]
    | [], _, h2, _ => exact absurd rfl h2
    | _ :: _ :: _, h1, _, _ => simp at h1
  | cons n sizes ih =>
    obtain ⟨a, ha, hb, hslice, hchildren⟩ := sparse_block groups pos g hg
    have hmem := List.getElem?_mem hg
    have hokc : ∀ g1 ∈ sparseChildren groups,
        groupOK sizes.length g1 ∧ g1.Pairwise CoordinateEntry.le := by
      intro g1 hg1
      refine ⟨(groupOK_sparseChildren _ groups (fun x hx => (hok x hx).1) g1 hg1).1, ?_⟩
      simp only [sparseChildren, List.mem_flatMap, List.mem_map] at hg1
      obtain ⟨g0, hg0, j, _, rfl⟩ := hg1
      exact sorted_child j g0 (hok g0 hg0).2
    have hnec : ∀ g1 ∈ sparseChildren groups, g1 ≠ [] := fun g1 hg1 =>
      (groupOK_sparseChildren _ groups (fun x hx => (hok x hx).1) g1 hg1).2
    simp only [List.map_cons, packLevels, walk, ha, hb, Nat.add_sub_cancel_left, hslice]
    have hterm : ∀ pc ∈ (distinct (levelCoords g)).enumFrom a,
        (walk (sizes.map (fun n => (LevelType.Sparse, n)))
            (packLevels (sizes.map (fun n => (LevelType.Sparse, n))) false
              (sparseChildren groups)).1
            (packLevels (sizes.map (fun n => (LevelType.Sparse, n))) false
              (sparseChildren groups)).2 pc.1).map (fun r => (pc.2 :: r.1, r.2))
          = (child pc.2 g).map (fun e => (pc.2 :: e.coords, e.value)) := by
      intro pc hpc
      obtain ⟨p, c⟩ := pc
      obtain ⟨hle, hget⟩ := List.mk_mem_enumFrom_iff_le_and_getElem?_sub.mp hpc
      have hp : (sparseChildren groups)[p]? = some (child c g) := by
        have := hchildren (p - a) c hget
        rwa [Nat.add_sub_cancel' hle] at this
      rw [ih false (sparseChildren groups) p (child c g) hp hokc (fun _ => ⟨rfl, hnec⟩)]
      simp [CoordinateEntry.toPair, List.map_map]
    rw [List.flatMap_congr hterm]
    have hsnd : ((distinct (levelCoords g)).enumFrom a).flatMap
          (fun pc => (child pc.2 g).map (fun e => (pc.2 :: e.coords, e.value)))
        = (((distinct (levelCoords g)).enumFrom a).map Prod.snd).flatMap
          (fun c => (child c g).map (fun e => (c :: e.coords, e.value))) := by
      rw [List.flatMap_map]
    rw [hsnd, List.enumFrom_map_snd]
    apply regroup_child g _ (hok g hmem).2
    intro e he
    have hl := (hok g hmem).1.1 e he
    intro hnil
    rw [hnil] at hl
    simp at hl

/-! ## Sparse packing -/

/-- The level walk of a packed tensor whose levels are all sparse, on the
packer as step 3 of the spec words it (a sparse level stores the distinct
coordinates of a parent group): for a non-empty list of dimension sizes, the
identity ordering and entries that lie inside the dimensions and have pairwise
distinct coordinates, the walk from the single parent group yields the pairs
of coordinates and value of the entries in sorted order. -/
theorem walk_pack_sparse_of_nodup {α : Type} [Zero α] [Add α] (dimensions : List Nat)
    (format : Format) (entries : List (CoordinateEntry α))
    (hrank : dimensions ≠ [])
    (hfmt : format.levelTypes = List.replicate dimensions.length LevelType.Sparse)
    (hord : format.ordering = List.range dimensions.length)
    (hin : ∀ e ∈ entries, inBounds dimensions e.coords = true)
    (hdist : (entries.map (fun e => e.coords)).Nodup) :
    walk (storageLevels dimensions format) (pack dimensions format entries).indices
        (pack dimensions format entries).values 0
      = (sortEntries entries).map CoordinateEntry.toPair ∧
    (walk (storageLevels dimensions format) (pack dimensions format entries).indices
        (pack dimensions format entries).values 0).Perm
      (entries.map CoordinateEntry.toPair) := by
  have hlev : storageLevels dimensions format
      = dimensions.map (fun n => (LevelType.Sparse, n)) := by
    rw [storageLevels, hfmt, hord, permute_range, zip_replicate_eq_map]
  have hent : storageEntries format entries = sortEntries entries :=
    storageEntries_of_identity dimensions format entries hord
      (fun e he => length_of_inBounds _ _ (hin e he))
  have hok : ∀ g ∈ [sortEntries entries],
      groupOK dimensions.length g ∧ g.Pairwise CoordinateEntry.le := by
    intro g hg
    rw [List.mem_singleton] at hg
    subst hg
    refine ⟨?_, sorted_sortEntries entries⟩
    rw [← hent]
    exact groupOK_storageEntries dimensions format entries (hord ▸ List.Perm.refl _) hin hdist
  have hwalk := walk_sparse_levels dimensions true [sortEntries entries] 0
    (sortEntries entries) rfl hok (fun h => absurd h hrank)
  have heq : walk (storageLevels dimensions format) (pack dimensions format entries).indices
        (pack dimensions format entries).values 0
      = (sortEntries entries).map CoordinateEntry.toPair := by
    simp only [pack, hlev, hent]
    exact hwalk
  refine ⟨heq, ?_⟩
  rw [heq]
  exact (List.perm_insertionSort _ entries).map _

/-- The level walk on the all-sparse cases of the storage test: the vector of
size 5 in format `s`, the 3x3 matrix in format `ss` and the 2x3x3 tensor in
format `sss` are read back as their entries. -/
theorem walk_sparse_tests :
    walk (storageLevels [5] (Sample.format ['s']))
        (pack [5] (Sample.format ['s']) Sample.d5a).indices
        (pack [5] (Sample.format ['s']) Sample.d5a).values 0
      = [([1], 1), ([4], 2)] ∧
    walk (storageLevels [3, 3] (Sample.format ['s', 's']))
        (pack [3, 3] (Sample.format ['s', 's']) Sample.d33a).indices
        (pack [3, 3] (Sample.format ['s', 's']) Sample.d33a).values 0
      = [([0, 1], 1), ([2, 0], 2), ([2, 2], 3)] ∧
    walk (storageLevels [2, 3, 3] (Sample.format ['s', 's', 's']))
        (pack [2, 3, 3] (Sample.format ['s', 's', 's']) Sample.d233a).indices
        (pack [2, 3, 3] (Sample.format ['s', 's', 's']) Sample.d233a).values 0
      = [([0, 0, 0], 1), ([0, 0, 1], 2), ([0, 2, 2], 3), ([1, 0, 1], 4), ([1, 2, 0], 5),
         ([1, 2, 2], 6)] := by
  decide

theorem walk_leaf_coords {α : Type} (values : List α) (slice : List Nat) (a : Nat) :
    (((slice.enumFrom a).flatMap (fun pc =>
        (walk ([] : List (LevelType × Nat)) [] values pc.1).map
          (fun r => (pc.2 :: r.1, r.2)))).map Prod.fst).Sublist
      (slice.map (fun c => [c])) := by
  induction slice generalizing a with
  | nil => simp
  | cons c cs ih =>
    simp only [List.enumFrom_cons, List.flatMap_cons, List.map_append, List.map_cons]
    cases hv : values[a]? with
    | none =>
      simp only [walk, hv, List.map_nil, List.nil_append]
      exact (ih (a + 1)).trans (List.sublist_cons_self _ _)
    | some v =>
      simp only [walk, hv, List.map_cons, List.map_nil, List.singleton_append]
      exact (ih (a + 1)).cons₂ _

/-- A packed vector in format `s` whose stored indices are strictly increasing
in the segment of the single parent group, as the canonical invariant of the
spec demands, is read back by the level walk as pairs with pairwise distinct
coordinates, whatever its arrays hold. -/
theorem walk_increasing_nodup {α : Type} (n : Nat) (seg ind : List Nat) (values : List α)
    (a b : Nat) (ha : seg[0]? = some a) (hb : seg[1]? = some b)
    (hinc : ((ind.drop a).take (b - a)).Pairwise (fun x y => x < y)) :
    ((walk [(LevelType.Sparse, n)] [[seg, ind]] values 0).map Prod.fst).Nodup := by
  have hb1 : seg[0 + 1]? = some b := hb
  simp only [walk, ha, hb1]
  refine (walk_leaf_coords values _ a).nodup ?_
  refine List.Nodup.map (fun x y hxy => by simpa using hxy) ?_
  exact hinc.imp (fun h => Nat.ne_of_lt h)

/-- No packed vector in format `s` with strictly increasing stored indices is
read back as the two entries `(1) -> 1` and `(1) -> 2`: the canonical
invariant and the recovery of a coordinate that is listed twice exclude each
other. -/
theorem walk_increasing_not_repeated (n : Nat) (seg ind : List Nat) (values : List Int)
    (a b : Nat) (ha : seg[0]? = some a) (hb : seg[1]? = some b)
    (hinc : ((ind.drop a).take (b - a)).Pairwise (fun x y => x < y)) :
    ¬ (walk [(LevelType.Sparse, n)] [[seg, ind]] values 0).Perm
        (Sample.repeated.map CoordinateEntry.toPair) := by
  intro hperm
  have hnodup := walk_increasing_nodup n seg ind values a b ha hb hinc
  have h2 := (hperm.map Prod.fst).nodup_iff.mp hnodup
  revert h2
  decide

/-! ## Identity and order of handles -/

/-- C12: equality of index variables and of tensor variables is identity of
the content node and never the name: `a == b` holds iff the two handles point
to the same content, a copy of a handle equals the handle, and a variable built
by a constructor call is unequal to every variable built by an earlier
constructor call, also when both are given the same name (for tensor
variables: the same name, type and format). -/
theorem eq_is_identity :
    (∀ a b : IndexVar, a.eq b = true ↔ a.content = b.content) ∧
    (∀ a : IndexVar, a.eq a = true) ∧
    (∀ (s s1 : State) (name name1 : String),
      (IndexVar.new s name).2.nextIndexVar ≤ s1.nextIndexVar →
      (IndexVar.new s name).1.eq (IndexVar.new s1 name1).1 = false) ∧
    (∀ (s : State) (name : String),
      (IndexVar.new s name).1.eq (IndexVar.new (IndexVar.new s name).2 name).1 = false ∧
      (IndexVar.new s name).1.getName (IndexVar.new (IndexVar.new s name).2 name).2 = name ∧
      (IndexVar.new (IndexVar.new s name).2 name).1.getName
        (IndexVar.new (IndexVar.new s name).2 name).2 = name) ∧
    (∀ a b : TensorVar, a.eq b = true ↔ a.content = b.content) ∧
    (∀ a : TensorVar, a.eq a = true) ∧
    (∀ (s s1 : State) (name name1 : String) (type type1 : TensorType) (format format1 : Format)
        (acc acc1 : Bool),
      (TensorVar.new s name type format acc).2.nextTensorVar ≤ s1.nextTensorVar →
      (TensorVar.new s name type format acc).1.eq
        (TensorVar.new s1 name1 type1 format1 acc1).1 = false) ∧
    (∀ (s : State) (name : String) (type : TensorType) (format : Format) (acc : Bool),
      (TensorVar.new s name type format acc).1.eq
        (TensorVar.new (TensorVar.new s name type format acc).2 name type format acc).1
        = false) := by
  refine ⟨fun a b => by simp [IndexVar.eq], fun a => by simp [IndexVar.eq], ?_, ?_,
    fun a b => by simp [TensorVar.eq], fun a => by simp [TensorVar.eq], ?_, ?_⟩
  · intro s s1 name name1 h
    simp only [IndexVar.new] at h
    simp only [IndexVar.new, IndexVar.eq, beq_eq_false_iff_ne, ne_eq]
    omega
  · intro s name
    refine ⟨?_, ?_, ?_⟩
    · simp [IndexVar.new, IndexVar.eq]
    · simp [IndexVar.new, IndexVar.getName, Function.update]
    · simp [IndexVar.new, IndexVar.getName]
  · intro s s1 name name1 type type1 format format1 acc acc1 h
    simp only [TensorVar.new] at h
    simp only [TensorVar.new, TensorVar.eq, beq_eq_false_iff_ne, ne_eq]
    omega
  · intro s name type format acc
    simp [TensorVar.new, TensorVar.eq]

/-- Witness for C12: two index variables built one after the other with the
name `i` are unequal, and both report the name `i`. -/
theorem eq_is_identity_witness :
    (IndexVar.new State.init "i").2.nextIndexVar
      ≤ (IndexVar.new State.init "i").2.nextIndexVar ∧
    (IndexVar.new State.init "i").1.eq
      (IndexVar.new (IndexVar.new State.init "i").2 "i").1 = false :=
  ⟨Nat.le_refl _,
   eq_is_identity.2.2.1 State.init (IndexVar.new State.init "i").2 "i" "i" (Nat.le_refl _)⟩

/-- C17: `operator<` on index variables is a strict total order consistent
with `operator==`: it is irreflexive and transitive, and for all `a`, `b`
exactly one of `a < b`, `a == b`, `b < a` holds; the result depends only on
the two content pointers (the comparison reads no name and no heap).  The same
holds for tensor variables. -/
theorem lt_strict_total_order :
    ((∀ a : IndexVar, a.lt a = false) ∧
     (∀ a b c : IndexVar, a.lt b = true → b.lt c = true → a.lt c = true) ∧
     (∀ a b : IndexVar,
       (a.lt b = true ∧ a.eq b = false ∧ b.lt a = false) ∨
       (a.lt b = false ∧ a.eq b = true ∧ b.lt a = false) ∨
       (a.lt b = false ∧ a.eq b = false ∧ b.lt a = true)) ∧
     (∀ a b a1 b1 : IndexVar, a.content = a1.content → b.content = b1.content →
       a.lt b = a1.lt b1)) ∧
    ((∀ a : TensorVar, a.lt a = false) ∧
     (∀ a b c : TensorVar, a.lt b = true → b.lt c = true → a.lt c = true) ∧
     (∀ a b : TensorVar,
       (a.lt b = true ∧ a.eq b = false ∧ b.lt a = false) ∨
       (a.lt b = false ∧ a.eq b = true ∧ b.lt a = false) ∨
       (a.lt b = false ∧ a.eq b = false ∧ b.lt a = true)) ∧
     (∀ a b a1 b1 : TensorVar, a.content = a1.content → b.content = b1.content →
       a.lt b = a1.lt b1)) := by
  refine ⟨⟨?_, ?_, ?_, ?_⟩, ⟨?_, ?_, ?_, ?_⟩⟩
  · intro a
    simp [IndexVar.lt]
  · intro a b c h1 h2
    simp only [IndexVar.lt, decide_eq_true_eq] at h1 h2 ⊢
    omega
  · intro a b
    simp only [IndexVar.lt, IndexVar.eq, decide_eq_true_eq, decide_eq_false_iff_not,
      beq_iff_eq, beq_eq_false_iff_ne, ne_eq]
    omega
  · intro a b a1 b1 h1 h2
    simp [IndexVar.lt, h1, h2]
  · intro a
    simp [TensorVar.lt]
  · intro a b c h1 h2
    simp only [TensorVar.lt, decide_eq_true_eq] at h1 h2 ⊢
    omega
  · intro a b
    simp only [TensorVar.lt, TensorVar.eq, decide_eq_true_eq, decide_eq_false_iff_not,
      beq_iff_eq, beq_eq_false_iff_ne, ne_eq]
    omega
  · intro a b a1 b1 h1 h2
    simp [TensorVar.lt, h1, h2]

/-- Witness for C17: the index variables `i`, `j` and `i1` of the sample heap
are ordered by their addresses. -/
theorem lt_strict_total_order_witness :
    Sample.i.lt Sample.j = true ∧ Sample.j.lt Sample.i1 = true ∧
    Sample.i.lt Sample.i1 = true :=
  ⟨by decide, by decide,
   lt_strict_total_order.1.2.1 Sample.i Sample.j Sample.i1 (by decide) (by decide)⟩

/-! ## What binding and construction do not check -/

theorem setIndexExpression_error_mem (chk : ErrorChecks) (s : State) (t : TensorVar)
    (freeVars : List IndexVar) (e : IndexExpr) (acc : Bool) :
    (t.setIndexExpression chk s freeVars e acc).error = none ∨
    (t.setIndexExpression chk s freeVars e acc).error = some .DimensionMismatch ∨
    (t.setIndexExpression chk s freeVars e acc).error = some .UnsupportedTransposition ∨
    (t.setIndexExpression chk s freeVars e acc).error = some .UnsupportedDistribution := by
  unfold TensorVar.setIndexExpression
  dsimp only
  split_ifs <;> simp

theorem setIndexExpression_stores (chk : ErrorChecks) (s : State) (t : TensorVar)
    (freeVars : List IndexVar) (e : IndexExpr) (acc : Bool)
    (h : (t.setIndexExpression chk s freeVars e acc).error = none) :
    t.getFreeVars (t.setIndexExpression chk s freeVars e acc).state = freeVars ∧
    t.getIndexExpr (t.setIndexExpression chk s freeVars e acc).state = e ∧
    t.isAccumulating (t.setIndexExpression chk s freeVars e acc).state = acc := by
  revert h
  unfold TensorVar.setIndexExpression
  dsimp only
  split_ifs <;>
    simp [TensorVar.getFreeVars, TensorVar.getIndexExpr, TensorVar.isAccumulating]

/-- C13, as it holds on the code: `setIndexExpression` does not itself reject
an already bound tensor.  For every tensor, bound or not, it never raises
AlreadyBound, and whenever the given free variables and expression pass the
three checks it succeeds and the tensor then reports the given free variables,
expression and accumulate flag, whatever it stored before.  (The rejection of
a rebind is made by `operator=` and `operator+=` before they call it.) -/
theorem setIndexExpression_overwrites (chk : ErrorChecks) (s : State) (t : TensorVar)
    (freeVars : List IndexVar) (e : IndexExpr) (acc : Bool) :
    (t.setIndexExpression chk s freeVars e acc).error ≠ some .AlreadyBound ∧
    (chk.dimensionsTypecheck s freeVars e (t.getType s).getShape = true →
     chk.containsTranspose s (t.getFormat s) freeVars e = false →
     chk.containsDistribution s freeVars e = false →
      (t.setIndexExpression chk s freeVars e acc).error = none ∧
      t.getFreeVars (t.setIndexExpression chk s freeVars e acc).state = freeVars ∧
      t.getIndexExpr (t.setIndexExpression chk s freeVars e acc).state = e ∧
      t.isAccumulating (t.setIndexExpression chk s freeVars e acc).state = acc) := by
  refine ⟨?_, fun h1 h2 h3 => ?_⟩
  · rcases setIndexExpression_error_mem chk s t freeVars e acc with h | h | h | h <;>
      simp [h]
  · have hnone : (t.setIndexExpression chk s freeVars e acc).error = none := by
      rw [setIndexExpression_of_pass chk s t freeVars e acc h1 h2 h3]
    exact ⟨hnone, setIndexExpression_stores chk s t freeVars e acc hnone⟩

/-- Witness for C13: on the matrix `A` that is already bound to `B(i,j)`,
`setIndexExpression` with `C(i,j)` succeeds and `A` is then bound to
`C(i,j)`. -/
theorem setIndexExpression_overwrites_witness :
    (Sample.A.getIndexExpr Sample.boundMatrixHeap).defined = true ∧
    (Sample.A.setIndexExpression sampleChecks Sample.boundMatrixHeap [Sample.i, Sample.j]
        Sample.Cij.toIndexExpr false).error = none ∧
    Sample.A.getIndexExpr (Sample.A.setIndexExpression sampleChecks Sample.boundMatrixHeap
        [Sample.i, Sample.j] Sample.Cij.toIndexExpr false).state = Sample.Cij.toIndexExpr := by
  have h := (setIndexExpression_overwrites sampleChecks Sample.boundMatrixHeap Sample.A
    [Sample.i, Sample.j] Sample.Cij.toIndexExpr false).2 (by decide) (by decide) (by decide)
  exact ⟨by decide, h.1, h.2.2.1⟩

/-- Counterexample to C13 as stated: the matrix `A` is bound to `B(i,j)`;
`setIndexExpression` with the free variables `i, j` and the expression
`C(i,j)` raises nothing and replaces the stored expression by `C(i,j)`. -/
theorem setIndexExpression_rebinds :
    (Sample.A.getIndexExpr Sample.boundMatrixHeap).defined = true ∧
    Sample.A.getIndexExpr Sample.boundMatrixHeap = Sample.Bij.toIndexExpr ∧
    (Sample.A.setIndexExpression sampleChecks Sample.boundMatrixHeap [Sample.i, Sample.j]
        Sample.Cij.toIndexExpr false).error = none ∧
    Sample.A.getIndexExpr (Sample.A.setIndexExpression sampleChecks Sample.boundMatrixHeap
        [Sample.i, Sample.j] Sample.Cij.toIndexExpr false).state = Sample.Cij.toIndexExpr := by
  decide

/-- C14, as it holds on the code: `setIndexExpression` either raises or leaves
the tensor with exactly the free variables it was given, and `operator=` and
`operator+=` either raise or leave the tensor with the index variables of the
access; so after a bind the number of free variables is the number of
variables given, which is the rank exactly when the caller gave as many
variables as the tensor has dimensions. -/
theorem setIndexExpression_keeps_given_freeVars (chk : ErrorChecks) (s : State)
    (t : TensorVar) (freeVars : List IndexVar) (e : IndexExpr) (acc : Bool) (this : Access) :
    ((t.setIndexExpression chk s freeVars e acc).error = none →
      t.getFreeVars (t.setIndexExpression chk s freeVars e acc).state = freeVars ∧
      ((t.getFreeVars (t.setIndexExpression chk s freeVars e acc).state).length
          = (t.getType s).getShape.dimensions.length ↔
        freeVars.length = (t.getType s).getShape.dimensions.length)) ∧
    ((this.assign chk s e).error = none →
      this.getTensorVar.getFreeVars (this.assign chk s e).state = this.getIndexVars) ∧
    ((this.accumulate chk s e).error = none →
      this.getTensorVar.getFreeVars (this.accumulate chk s e).state = this.getIndexVars) := by
  refine ⟨fun h => ?_, fun h => ?_, fun h => ?_⟩
  · have h1 := (setIndexExpression_stores chk s t freeVars e acc h).1
    exact ⟨h1, by rw [h1]⟩
  · by_cases hd : (this.getTensorVar.getIndexExpr s).defined = true
    · rw [assign_of_defined chk s this e hd] at h
      simp at h
    · simp only [Bool.not_eq_true] at hd
      rw [assign_of_undefined chk s this e hd] at h ⊢
      exact (setIndexExpression_stores chk s _ _ e false h).1
  · by_cases hd : (this.getTensorVar.getIndexExpr s).defined = true
    · rw [accumulate_of_defined chk s this e hd] at h
      simp at h
    · simp only [Bool.not_eq_true] at hd
      rw [accumulate_of_undefined chk s this e hd] at h ⊢
      exact (setIndexExpression_stores chk s _ _ e true h).1

/-- Witness for C14: `A(i,j) = B(i,j)` on the 3x3 matrix `A` leaves `A` with
the two free variables `i, j`. -/
theorem setIndexExpression_keeps_given_freeVars_witness :
    (Sample.Aij.assign sampleChecks Sample.matrixHeap Sample.Bij.toIndexExpr).error = none ∧
    Sample.A.getFreeVars
      (Sample.Aij.assign sampleChecks Sample.matrixHeap Sample.Bij.toIndexExpr).state
      = [Sample.i, Sample.j] :=
  ⟨by decide,
   (setIndexExpression_keeps_given_freeVars sampleChecks Sample.matrixHeap Sample.A
      [Sample.i, Sample.j] Sample.Bij.toIndexExpr false Sample.Aij).2.1 (by decide)⟩

/-- Counterexample to C14 as stated: the 3x3 matrix `A` has rank 2 and a format
of length 2; `setIndexExpression` with the single free variable `i` and the
expression `B(i,j)` passes the dimension typecheck of the spec, raises nothing
and leaves `A` with one free variable. -/
theorem setIndexExpression_stores_wrong_count :
    (Sample.A.getType Sample.matrixHeap).getShape.dimensions.length = 2 ∧
    (Sample.A.getFormat Sample.matrixHeap).levelTypes.length = 2 ∧
    (Sample.A.setIndexExpression sampleChecks Sample.matrixHeap [Sample.i]
        Sample.Bij.toIndexExpr false).error = none ∧
    (Sample.A.getFreeVars (Sample.A.setIndexExpression sampleChecks Sample.matrixHeap
        [Sample.i] Sample.Bij.toIndexExpr false).state).length = 1 := by
  decide

/-- C15, as it holds on the code: constructing `Access(T, vars)` compares
nothing with the rank of `T`; for every tensor and every list of index
variables, of any length, it succeeds with `getTensorVar() = T` and
`getIndexVars() = vars`. -/
theorem access_new_accepts_any_arity (ptr : Nat) (tensor : TensorVar)
    (indices : List IndexVar) :
    ∃ a, Access.new ptr tensor indices = .ok a ∧ a.getTensorVar = tensor ∧
      a.getIndexVars = indices ∧ a.toIndexExpr.ptr = some ptr :=
  ⟨⟨ptr, tensor, indices⟩, rfl, rfl, rfl, rfl⟩

/-- Counterexample to C15 as stated: the 3x3 matrix `A` has rank 2;
`Access(A, {i})` with a single index variable is constructed without any
failure. -/
theorem access_new_wrong_arity :
    (Sample.A.getType Sample.matrixHeap).getShape.dimensions.length = 2 ∧
    [Sample.i].length = 1 ∧
    Access.new 10 Sample.A [Sample.i] = .ok ⟨10, Sample.A, [Sample.i]⟩ :=
  ⟨by decide, rfl, rfl⟩

/-- C16, as it holds on the code: the length of the format is validated
neither at construction nor at bind.  `TensorVar::TensorVar` stores any format
next to any type, and `setIndexExpression` never raises MalformedFormat: its
outcome is decided by the three checks alone, so that with a format whose
length differs from the rank it still binds the tensor whenever the three
checks pass. -/
theorem format_length_not_validated (chk : ErrorChecks) (s : State) (t : TensorVar)
    (freeVars : List IndexVar) (e : IndexExpr) (acc : Bool) :
    (∀ (name : String) (type : TensorType) (format : Format) (acc0 : Bool),
      (TensorVar.new s name type format acc0).1.getFormat
          (TensorVar.new s name type format acc0).2 = format ∧
      (TensorVar.new s name type format acc0).1.getType
          (TensorVar.new s name type format acc0).2 = type) ∧
    (t.setIndexExpression chk s freeVars e acc).error ≠ some .MalformedFormat ∧
    (chk.dimensionsTypecheck s freeVars e (t.getType s).getShape = true →
     chk.containsTranspose s (t.getFormat s) freeVars e = false →
     chk.containsDistribution s freeVars e = false →
      (t.setIndexExpression chk s freeVars e acc).error = none ∧
      t.getIndexExpr (t.setIndexExpression chk s freeVars e acc).state = e) := by
  refine ⟨fun name type format acc0 => ?_, ?_, fun h1 h2 h3 => ?_⟩
  · simp [TensorVar.new, TensorVar.getFormat, TensorVar.getType]
  · rcases setIndexExpression_error_mem chk s t freeVars e acc with h | h | h | h <;>
      simp [h]
  · have hnone : (t.setIndexExpression chk s freeVars e acc).error = none := by
      rw [setIndexExpression_of_pass chk s t freeVars e acc h1 h2 h3]
    exact ⟨hnone, (setIndexExpression_stores chk s t freeVars e acc hnone).2.1⟩

/-- Witness for C16: the matrix `A` of the malformed heap has a format of one
level and a type of two dimensions; binding `B(i,j)` to it succeeds. -/
theorem format_length_not_validated_witness :
    (Sample.A.setIndexExpression sampleChecks Sample.malformedHeap [Sample.i, Sample.j]
        Sample.Bij.toIndexExpr false).error = none ∧
    Sample.A.getIndexExpr (Sample.A.setIndexExpression sampleChecks Sample.malformedHeap
        [Sample.i, Sample.j] Sample.Bij.toIndexExpr false).state = Sample.Bij.toIndexExpr :=
  (format_length_not_validated sampleChecks Sample.malformedHeap Sample.A
    [Sample.i, Sample.j] Sample.Bij.toIndexExpr false).2.2 (by decide) (by decide) (by decide)

/-- Counterexample to C16 as stated: `A` has a format of one level and a type
of two dimensions; `setIndexExpression` with `i, j` and `B(i,j)` raises
nothing, in particular not MalformedFormat, and `A` is bound afterwards. -/
theorem setIndexExpression_accepts_malformed_format :
    (Sample.A.getFormat Sample.malformedHeap).levelTypes.length = 1 ∧
    (Sample.A.getType Sample.malformedHeap).getShape.dimensions.length = 2 ∧
    (Sample.A.setIndexExpression sampleChecks Sample.malformedHeap [Sample.i, Sample.j]
        Sample.Bij.toIndexExpr false).error = none ∧
    (Sample.A.getIndexExpr (Sample.A.setIndexExpression sampleChecks Sample.malformedHeap
        [Sample.i, Sample.j] Sample.Bij.toIndexExpr false).state).defined = true := by
  decide

/-! ## Increasing indices -/

theorem sorted_distinct (l : List Nat) (hl : l.Pairwise (fun a b => a ≤ b)) :
    (distinct l).Sorted (fun a b => a < b) := by
  induction l with
  | nil => simp [distinct]
  | cons x xs ih =>
    have hx := List.pairwise_cons.mp hl
    simp only [distinct, List.sorted_cons, List.mem_filter, decide_eq_true_eq]
    refine ⟨fun y hy => ?_, (ih hx.2).filter _⟩
    have hle := hx.1 y ((mem_distinct xs y).mp hy.1)
    have hne := hy.2
    omega

theorem pairwise_levelCoords {α : Type} (g : List (CoordinateEntry α))
    (hs : g.Pairwise CoordinateEntry.le) : (levelCoords g).Pairwise (fun a b => a ≤ b) := by
  unfold levelCoords
  apply hs.filterMap
  intro a a1 hle b hb b1 hb1
  obtain ⟨coords, v⟩ := a
  obtain ⟨coords1, v1⟩ := a1
  cases coords with
  | nil => simp at hb
  | cons c cs =>
    cases coords1 with
    | nil => simp at hb1
    | cons c1 cs1 =>
      simp only [List.head?_cons, Option.mem_def, Option.some.injEq] at hb hb1
      subst hb hb1
      simp only [CoordinateEntry.le, lexLE, Bool.or_eq_true, Bool.and_eq_true,
        decide_eq_true_eq, beq_iff_eq] at hle
      rcases hle with h | ⟨h, _⟩ <;> omega

theorem sorted_denseChildren {α : Type} (size : Nat)
    (groups : List (List (CoordinateEntry α)))
    (hs : ∀ g ∈ groups, g.Pairwise CoordinateEntry.le) :
    ∀ g ∈ denseChildren size groups, g.Pairwise CoordinateEntry.le := by
  intro g hg
  simp only [denseChildren, List.mem_flatMap, List.mem_map] at hg
  obtain ⟨g0, hg0, j, _, rfl⟩ := hg
  exact sorted_child j g0 (hs g0 hg0)

theorem sorted_sparseChildren {α : Type} (groups : List (List (CoordinateEntry α)))
    (hs : ∀ g ∈ groups, g.Pairwise CoordinateEntry.le) :
    ∀ g ∈ sparseChildren groups, g.Pairwise CoordinateEntry.le := by
  intro g hg
  simp only [sparseChildren, List.mem_flatMap, List.mem_map] at hg
  obtain ⟨g0, hg0, j, _, rfl⟩ := hg
  exact sorted_child j g0 (hs g0 hg0)

theorem sparse_level_arrays {α : Type} [Zero α] [Add α] (levels : List (LevelType × Nat))
    (dense : Bool) (groups : List (List (CoordinateEntry α))) (k size : Nat)
    (hk : levels[k]? = some (LevelType.Sparse, size)) :
    ∃ seg ind, (packLevels levels dense groups).1[k]? = some [seg, ind] := by
  induction levels generalizing dense groups k with
  | nil => simp at hk
  | cons level levels ih =>
    obtain ⟨type, n⟩ := level
    cases k with
    | zero =>
      simp only [List.getElem?_cons_zero, Option.some.injEq, Prod.mk.injEq] at hk
      obtain ⟨ht, _⟩ := hk
      subst ht
      exact ⟨sparseSegments groups, sparseIndices groups, by simp [packLevels]⟩
    | succ k =>
      simp only [List.getElem?_cons_succ] at hk
      cases type with
      | Dense =>
        obtain ⟨seg, ind, h⟩ := ih true (denseChildren n groups) k hk
        exact ⟨seg, ind, by simpa [packLevels] using h⟩
      | Sparse =>
        obtain ⟨seg, ind, h⟩ := ih false (sparseChildren groups) k hk
        exact ⟨seg, ind, by simpa [packLevels] using h⟩

theorem increasing_packLevels {α : Type} [Zero α] [Add α] (levels : List (LevelType × Nat))
    (dense : Bool) (groups : List (List (CoordinateEntry α)))
    (hs : ∀ g ∈ groups, g.Pairwise CoordinateEntry.le) (k : Nat) (seg ind : List Nat)
    (hk : (packLevels levels dense groups).1[k]? = some [seg, ind]) (p a b : Nat)
    (ha : seg[p]? = some a) (hb : seg[p + 1]? = some b) :
    ((ind.drop a).take (b - a)).Sorted (fun x y => x < y) := by
  induction levels generalizing dense groups k with
  | nil => simp [packLevels] at hk
  | cons level levels ih =>
    obtain ⟨type, n⟩ := level
    cases type with
    | Dense =>
      cases k with
      | zero => simp [packLevels] at hk
      | succ k =>
        simp only [packLevels, List.getElem?_cons_succ] at hk
        exact ih true _ (sorted_denseChildren n groups hs) k hk
    | Sparse =>
      cases k with
      | zero =>
        simp only [packLevels, List.getElem?_cons_zero, Option.some.injEq, List.cons.injEq,
          and_true] at hk
        obtain ⟨hseg, hind⟩ := hk
        subst hseg hind
        have hlt : p < groups.length := by
          rcases List.getElem?_eq_some_iff.mp hb with ⟨h, _⟩
          simp only [sparseSegments, cumulative_length, List.length_map] at h
          omega
        obtain ⟨a1, ha1, hb1, hslice, _⟩ := sparse_block groups p groups[p]
          (List.getElem?_eq_getElem hlt)
        rw [ha] at ha1
        rw [hb] at hb1
        simp only [Option.some.injEq] at ha1 hb1
        subst ha1
        rw [hb1, Nat.add_sub_cancel_left, hslice]
        exact sorted_distinct _ (pairwise_levelCoords _ (hs _ (List.getElem_mem _)))
      | succ k =>
        simp only [packLevels, List.getElem?_cons_succ] at hk
        exact ih false _ (sorted_sparseChildren groups hs) k hk

/-- C11: for every list of dimension sizes, every format and every list of
entries, in any insertion order and also when a coordinate is listed more than
once, every sparse level `k` of the packed tensor stores two arrays, segments
and indices, and for every parent group `p` the slice of the indices from
`segments[p]` up to `segments[p + 1]` is strictly increasing. -/
theorem pack_indices_increasing {α : Type} [Zero α] [Add α] (dimensions : List Nat)
    (format : Format) (entries : List (CoordinateEntry α)) (k size : Nat)
    (hk : (storageLevels dimensions format)[k]? = some (LevelType.Sparse, size)) :
    ∃ seg ind, (pack dimensions format entries).indices[k]? = some [seg, ind] ∧
      ∀ p a b, seg[p]? = some a → seg[p + 1]? = some b →
        ((ind.drop a).take (b - a)).Sorted (fun x y => x < y) := by
  obtain ⟨seg, ind, h⟩ := sparse_level_arrays (storageLevels dimensions format) true
    [storageEntries format entries] k size hk
  refine ⟨seg, ind, h, fun p a b ha hb => ?_⟩
  refine increasing_packLevels (storageLevels dimensions format) true
    [storageEntries format entries] ?_ k seg ind h p a b ha hb
  intro g hg
  rw [List.mem_singleton] at hg
  subst hg
  exact sorted_sortEntries _

/-- Witness for C11: the 3x3 matrix of the test in format `ds` has the indices
`{1, 0, 2}` with the segments `{0, 1, 1, 3}`; the slice of the last parent
group is `[0, 2]`. -/
theorem pack_indices_increasing_witness :
    (storageLevels [3, 3] (Sample.format ['d', 's']))[1]? = some (LevelType.Sparse, 3) ∧
    (pack [3, 3] (Sample.format ['d', 's']) Sample.d33a).indices[1]?
      = some [[0, 1, 1, 3], [1, 0, 2]] ∧
    (([1, 0, 2] : List Nat).drop 1).take (3 - 1) = [0, 2] ∧
    ∃ seg ind, (pack [3, 3] (Sample.format ['d', 's']) Sample.d33a).indices[1]?
        = some [seg, ind] ∧
      ∀ p a b, seg[p]? = some a → seg[p + 1]? = some b →
        ((ind.drop a).take (b - a)).Sorted (fun x y => x < y) :=
  ⟨by decide, by decide, by decide,
   pack_indices_increasing [3, 3] (Sample.format ['d', 's']) Sample.d33a 1 3 (by decide)⟩

/-- The packer on the vector of size 5 in which the coordinate 1 is listed
twice, format `s`: one index is stored. -/
theorem pack_repeated_test :
    (pack [5] (Sample.format ['s']) Sample.repeated).indices = [[[0, 1], [1]]] := by
  decide

/-! ## Sets and maps keyed by index variables -/

theorem insertDimensions_eq (shape : Shape) (vars : List IndexVar) (i : Nat)
    (map : List (IndexVar × Dimension)) (h : vars.length + i ≤ shape.dimensions.length) :
    insertDimensions shape vars i map
      = some ((vars.zip (shape.dimensions.drop i)).foldl (fun m p => mapInsert p.1 p.2 m)
          map) := by
  induction vars generalizing i map with
  | nil => simp [insertDimensions]
  | cons v vs ih =>
    simp only [List.length_cons] at h
    have hi : i < shape.dimensions.length := by omega
    have hd : shape.getDimension i = some shape.dimensions[i] := by
      simp [Shape.getDimension, List.getElem?_eq_getElem hi]
    simp only [insertDimensions, hd]
    rw [ih (i + 1) _ (by omega), List.drop_eq_getElem_cons hi, List.zip_cons_cons,
      List.foldl_cons]

theorem insertAccessDimensions_eq (s : State) (ops : List (TensorVar × List IndexVar))
    (map : List (IndexVar × Dimension))
    (h : ∀ op ∈ ops, op.2.length ≤ (op.1.getType s).getShape.dimensions.length) :
    insertAccessDimensions s ops map
      = some ((ops.flatMap (fun op => op.2.zip (op.1.getType s).getShape.dimensions)).foldl
          (fun m p => mapInsert p.1 p.2 m) map) := by
  induction ops generalizing map with
  | nil => simp [insertAccessDimensions]
  | cons op ops ih =>
    have hop := h op (List.mem_cons_self _ _)
    simp only [insertAccessDimensions]
    rw [insertDimensions_eq _ _ 0 _ (by simpa using hop)]
    simp only [List.drop_zero]
    rw [ih _ (fun x hx => h x (List.mem_cons_of_mem _ hx))]
    simp [List.foldl_append]

theorem getIndexVarRanges_eq (s : State) (t : TensorVar)
    (hfree : (t.getFreeVars s).length ≤ (t.getType s).getShape.dimensions.length)
    (hacc : ∀ op ∈ (t.getIndexExpr s).accesses,
      op.2.length ≤ (op.1.getType s).getShape.dimensions.length) :
    getIndexVarRanges s t
      = some ((rangeInsertions s t).foldl (fun m p => mapInsert p.1 p.2 m) []) := by
  simp only [getIndexVarRanges]
  rw [insertDimensions_eq _ _ 0 _ (by simpa using hfree)]
  simp only [List.drop_zero]
  rw [insertAccessDimensions_eq s _ _ hacc]
  simp [rangeInsertions, List.foldl_append]

theorem insertDimensions_defined (shape : Shape) (vars : List IndexVar) (i : Nat)
    (map m : List (IndexVar × Dimension)) (h : insertDimensions shape vars i map = some m) :
    vars = [] ∨ vars.length + i ≤ shape.dimensions.length := by
  induction vars generalizing i map with
  | nil => exact Or.inl rfl
  | cons v vs ih =>
    right
    simp only [insertDimensions] at h
    cases hd : shape.getDimension i with
    | none => simp [hd] at h
    | some d =>
      simp only [hd] at h
      have hi : i < shape.dimensions.length := by
        simp only [Shape.getDimension] at hd
        exact (List.getElem?_eq_some_iff.mp hd).1
      rcases ih (i + 1) _ h with h0 | h1
      · subst h0
        simp only [List.length_cons, List.length_nil]
        omega
      · simp only [List.length_cons]
        omega

theorem insertAccessDimensions_defined (s : State) (ops : List (TensorVar × List IndexVar))
    (map m : List (IndexVar × Dimension)) (h : insertAccessDimensions s ops map = some m) :
    ∀ op ∈ ops, op.2.length ≤ (op.1.getType s).getShape.dimensions.length := by
  induction ops generalizing map with
  | nil => simp
  | cons op ops ih =>
    simp only [insertAccessDimensions] at h
    cases h1 : insertDimensions (op.1.getType s).getShape op.2 0 map with
    | none => simp [h1] at h
    | some map1 =>
      simp only [h1] at h
      intro x hx
      rcases List.mem_cons.mp hx with hx | hx
      · subst hx
        rcases insertDimensions_defined _ _ _ _ _ h1 with h0 | h0
        · simp [h0]
        · simpa using h0
      · exact ih map1 h x hx

/-- The call `getIndexVarRanges(T)` reads no dimension past the end of a shape,
and so returns a map, exactly when the free variables of `T` are not more than
its dimensions and every access of its index expression has not more index
variables than its tensor has dimensions. -/
theorem getIndexVarRanges_defined_iff (s : State) (t : TensorVar) :
    (∃ m, getIndexVarRanges s t = some m) ↔
      ((t.getFreeVars s).length ≤ (t.getType s).getShape.dimensions.length ∧
       ∀ op ∈ (t.getIndexExpr s).accesses,
         op.2.length ≤ (op.1.getType s).getShape.dimensions.length) := by
  constructor
  · rintro ⟨m, hm⟩
    simp only [getIndexVarRanges] at hm
    cases h1 : insertDimensions (t.getType s).getShape (t.getFreeVars s) 0 [] with
    | none => simp [h1] at hm
    | some map1 =>
      simp only [h1] at hm
      refine ⟨?_, insertAccessDimensions_defined s _ _ _ hm⟩
      rcases insertDimensions_defined _ _ _ _ _ h1 with h0 | h0
      · simp [h0]
      · simpa using h0
  · rintro ⟨hfree, hacc⟩
    exact ⟨_, getIndexVarRanges_eq s t hfree hacc⟩

/-! ## Ranges of index variables -/

end taco
